import Mathlib

/-!
Verification of the HTML/CSS → Webflow-clipboard compiler.

This file gives a shallow embedding of the core of the compiler:
the CSS style compiler (`parseCSSToWebflow`, `parseCSSWithMediaQueries`,
`extractCSSVariables`, `resolveCSSVariables`, breakpoint mapping), the
HTML tree compiler (`compileHTMLToNodes` / `processElement` /
`getWebflowType` / `extractAttributes` / `createTextNode`), and the
chunker (`splitIntoChunks`), and proves the specified properties about
them.

Embedding conventions:
  * Strings are modelled as `List Char` (`Str`); JavaScript string
    operations (trim, split, startsWith, includes, toLowerCase, the
    specific regular expressions used by the source) are implemented
    directly over character lists, following the exact matching
    semantics of the regexes in the source (greedy character classes
    with the single forced-delimiter backtracking behaviour noted at
    each definition).
  * `uuidv4()` produces fresh, pairwise-distinct identifiers; it is
    modelled as a sequential counter (ids are `Nat`), i.e. as an
    injected fresh-identifier generator.  No claim depends on the
    shape of the identifiers, only on their freshness.
  * JavaScript `Map` objects are modelled as association lists with
    insertion-order upsert (`mapSet`), matching `Map.set` / `Map.get`.
  * Functions whose recursion in the source is bounded only by
    well-formedness of the input (comment stripping, regex scanning,
    variable resolution, subtree walks) take an explicit fuel that is
    chosen large enough to be exact on every input on which the source
    terminates; the fuel choice is documented at each definition.
  * The HTML parser (`htmlparser2`) is an external library; its output
    is modelled as a DOM forest (`DomForest`), and the universally
    quantified claims range over all DOM forests, which covers the
    image of every HTML input.
-/

/-! ## Characters and JavaScript string primitives -/

/-- Strings are modelled as lists of characters. -/
abbrev Str := List Char

/-- Short-hand to turn a Lean string literal into the `Str` model. -/
def str (s : String) : Str := s.toList

/-- Whitespace as used by JavaScript `\s` / `trim` (ASCII part; the
Unicode space characters never occur in any input considered here). -/
def isWsChar (c : Char) : Bool :=
  c == ' ' || c == '\t' || c == '\n' || c == '\r' || c == '\x0b' || c == '\x0c'

/-- Word characters of the regex class `[\w-]`. -/
def isWordDashChar (c : Char) : Bool :=
  c.isAlpha || c.isDigit || c == '_' || c == '-'

/-- Drop trailing whitespace. -/
def dropTrailingWs (s : Str) : Str := (s.reverse.dropWhile isWsChar).reverse

/-- JavaScript `String.prototype.trim`. -/
def trimJS (s : Str) : Str := dropTrailingWs (s.dropWhile isWsChar)

/-- JavaScript `String.prototype.toLowerCase` (ASCII). -/
def toLowerStr (s : Str) : Str := s.map Char.toLower

/-- Lowercasing packaged for `String` values (identical to
`String.toLower`, stated over the character list so that it reduces). -/
def toLowerS (s : String) : String := String.mk (toLowerStr s.toList)

/-- Does `s` start with `pat` (JavaScript `startsWith`)? -/
def beginsWith : Str → Str → Bool
  | _, [] => true
  | [], _ :: _ => false
  | a :: as, b :: bs => a == b && beginsWith as bs

/-- Does `s` contain `pat` as a substring (JavaScript `includes`)? -/
def hasSub : Str → Str → Bool
  | [], pat => pat.isEmpty
  | s@(_ :: rest), pat => beginsWith s pat || hasSub rest pat

/-- Split at the first occurrence of the character `c`; returns the
part before and the part after (JavaScript `indexOf` + slicing). -/
def splitAtFirst (c : Char) : Str → Option (Str × Str)
  | [] => none
  | d :: rest =>
      if d == c then some ([], rest)
      else (splitAtFirst c rest).map (fun p => (d :: p.1, p.2))

/-- Split at the first occurrence of the substring `pat`; returns the
part before and the part after the pattern. -/
def splitAtFirstSub (pat : Str) : Str → Option (Str × Str)
  | [] => if pat.isEmpty then some ([], []) else none
  | s@(d :: rest) =>
      if beginsWith s pat then some ([], s.drop pat.length)
      else (splitAtFirstSub pat rest).map (fun p => (d :: p.1, p.2))

/-- JavaScript `split(c)` on a single-character separator. -/
def splitOnChar (c : Char) : Str → List Str
  | [] => [[]]
  | d :: rest =>
      if d == c then [] :: splitOnChar c rest
      else
        match splitOnChar c rest with
        | [] => [[d]]
        | h :: t => (d :: h) :: t

/-- Join a list of strings with a separator (JavaScript `Array.join`). -/
def joinSep (sep : Str) : List Str → Str
  | [] => []
  | [x] => x
  | x :: xs => x ++ sep ++ joinSep sep xs

/-- JavaScript `Map` modelled as an association list: `set` keeps the
position of an existing key and appends new keys. -/
def mapSet {β : Type} (m : List (Str × β)) (k : Str) (v : β) : List (Str × β) :=
  if (m.find? (fun p => p.1 == k)).isSome
  then m.map (fun p => if p.1 == k then (k, v) else p)
  else m ++ [(k, v)]

/-- JavaScript `Map.get`. -/
def mapGet {β : Type} (m : List (Str × β)) (k : Str) : Option β :=
  (m.find? (fun p => p.1 == k)).map (·.2)

/-! ## Comment stripping

The source strips comments with `replace(/\/\*[\s\S]*?\*\//g, "")`:
each `/*` is deleted together with everything up to the earliest
`*/`; an unclosed `/*` matches nothing and is left in place. -/

/-- Drop everything up to and including the first `*/`. -/
def dropAfterClose : Str → Option Str
  | [] => none
  | '*' :: '/' :: rest => some rest
  | _ :: rest => dropAfterClose rest

/-- One fuel unit is spent per character consumed, so fuel equal to the
length of the string is always sufficient. -/
def removeCommentsGo : Nat → Str → Str
  | 0, s => s
  | _ + 1, [] => []
  | fuel + 1, '/' :: '*' :: rest =>
      match dropAfterClose rest with
      | some rest2 => removeCommentsGo fuel rest2
      | none => '/' :: '*' :: rest
  | fuel + 1, c :: rest => c :: removeCommentsGo fuel rest

/-- The global comment-removal pass of the source. -/
def removeComments (s : Str) : Str := removeCommentsGo s.length s

/-! ## CSS rule scanning

`parseCSSRules` matches `/([^{]+)\{([^}]+)\}/g`.  Because the two
character classes exclude exactly their following delimiter, matching
at a position is deterministic: a maximal nonempty run of non-`{`
characters, a `{`, a maximal nonempty run of non-`}` characters, a
`}`.  On failure the scan advances one character, as `exec` does. -/

/-- One CSS style rule: a selector and its declaration list. -/
structure CSSRule where
  selector : Str
  properties : List Str
deriving Repr, DecidableEq

/-- Try to match `([^{]+)\{([^}]+)\}` at the head of `s`; returns the
selector text, the body text and the remainder after the match. -/
def ruleMatchAt (s : Str) : Option (Str × Str × Str) :=
  let u := s.takeWhile (fun c => c != '{')
  if u.isEmpty then none
  else
    match s.drop u.length with
    | '{' :: r2 =>
        let v := r2.takeWhile (fun c => c != '}')
        if v.isEmpty then none
        else
          match r2.drop v.length with
          | '}' :: rest => some (u, v, rest)
          | _ => none
    | _ => none

/-- Global scan of the rule regex.  Fuel: every step consumes at least
one character, so the length of the string suffices. -/
def scanRulesGo : Nat → Str → List (Str × Str)
  | 0, _ => []
  | _ + 1, [] => []
  | fuel + 1, s@(_ :: rest) =>
      match ruleMatchAt s with
      | some (u, v, after) => (u, v) :: scanRulesGo fuel after
      | none => scanRulesGo fuel rest

/-- `parseCSSRules` of the source: strip comments, scan the rule
regex, trim the selector, split the body on `;`, trim and drop empty
declarations. -/
def parseCSSRules (css : Str) : List CSSRule :=
  let cleaned := removeComments css
  (scanRulesGo cleaned.length cleaned).map fun p =>
    { selector := trimJS p.1
      properties := ((splitOnChar ';' (trimJS p.2)).map trimJS).filter (fun d => d.length > 0) }

/-- `findRuleForClass`: the first rule whose selector is exactly
`.name` or starts with `.name` followed by a space, `:` or `.`. -/
def findRuleForClass (rules : List CSSRule) (className : Str) : Option CSSRule :=
  let target := '.' :: className
  rules.find? fun r =>
    r.selector == target ||
    beginsWith r.selector (target ++ [' ']) ||
    beginsWith r.selector (target ++ [':']) ||
    beginsWith r.selector (target ++ ['.'])

/-! ## Declaration flattening -/

/-- Remove a single trailing `;` (regex `/;$/`). -/
def stripTrailingSemi (s : Str) : Str :=
  match s.reverse with
  | ';' :: r => r.reverse
  | _ => s

/-- Replace the first match of `/\s*:\s*/` by `": "`.  The leftmost
match is the whitespace run preceding the first `:` together with the
whitespace following it. -/
def normalizeColon (p : Str) : Str :=
  match splitAtFirst ':' p with
  | none => p
  | some (pre, post) => dropTrailingWs pre ++ [':', ' '] ++ post.dropWhile isWsChar

/-- Per-declaration clean-up of `convertToStyleLess`: trim, delete all
braces, normalize the first colon, strip a trailing semicolon. -/
def cleanProperty (prop : Str) : Str :=
  let c1 := trimJS prop
  let c2 := c1.filter (fun c => c != '{' && c != '}')
  stripTrailingSemi (normalizeColon c2)

/-- `convertToStyleLess`: clean each declaration, drop empties, join
with `"; "`. -/
def convertToStyleLess (props : List Str) : Str :=
  joinSep (str "; ") ((props.map cleanProperty).filter (fun p => p.length > 0))

/-! ## Custom-property extraction (`extractCSSVariables`)

The source locates `:root`, finds the following `{`, scans with a
brace counter to the matching `}`, then scans the block with the
global regex `--([\w-]+)\s*:\s*([^;]+);` . -/

/-- Content up to the brace that closes the current block (the source's
explicit `braceCount` scan, entered just after the opening brace). -/
def takeBalanced : Str → Nat → Option Str
  | [], _ => none
  | '{' :: rest, depth => (takeBalanced rest (depth + 1)).map (fun t => '{' :: t)
  | '}' :: rest, depth =>
      match depth with
      | 0 => some []
      | d + 1 => (takeBalanced rest d).map (fun t => '}' :: t)
  | c :: rest, depth => (takeBalanced rest depth).map (fun t => c :: t)

/-- Try to match `--([\w-]+)\s*:\s*([^;]+);` at the head of `s`.
When everything between the colon and the `;` is whitespace, the
greedy `\s*` backtracks one character so that `[^;]+` can match it;
the captured value is then that single whitespace character. -/
def varDeclMatchAt (s : Str) : Option ((Str × Str) × Str) :=
  match s with
  | '-' :: '-' :: r1 =>
      let name := r1.takeWhile isWordDashChar
      if name.isEmpty then none
      else
        let r2 := (r1.drop name.length).dropWhile isWsChar
        match r2 with
        | ':' :: r3 =>
            let w := r3.takeWhile isWsChar
            let r4 := r3.drop w.length
            let v := r4.takeWhile (fun c => c != ';')
            if v.isEmpty then
              match w.reverse, r4 with
              | c :: _, ';' :: rest => some ((name, [c]), rest)
              | _, _ => none
            else
              match r4.drop v.length with
              | ';' :: rest => some ((name, v), rest)
              | _ => none
        | _ => none
  | _ => none

/-- Global scan of the custom-property regex; name and value are
trimmed as in the source.  Fuel: one unit per character consumed. -/
def scanVarDeclsGo : Nat → Str → List (Str × Str)
  | 0, _ => []
  | _ + 1, [] => []
  | fuel + 1, s@(_ :: rest) =>
      match varDeclMatchAt s with
      | some (nv, after) => (trimJS nv.1, trimJS nv.2) :: scanVarDeclsGo fuel after
      | none => scanVarDeclsGo fuel rest

/-- `extractCSSVariables`: the `:root` custom-property table. -/
def extractCSSVariables (css : Str) : List (Str × Str) :=
  let cleaned := removeComments css
  match splitAtFirstSub (str ":root") cleaned with
  | none => []
  | some (_, afterRoot) =>
      match splitAtFirst '{' afterRoot with
      | none => []
      | some (_, afterBrace) =>
          match takeBalanced afterBrace 0 with
          | none => []
          | some rootContent =>
              (scanVarDeclsGo rootContent.length rootContent).foldl
                (fun m nv => mapSet m nv.1 nv.2) []

/-! ## Variable resolution (`resolveCSSVariables`)

The source replaces `/var\(\s*--([\w-]+)\s*(?:,\s*([^)]+))?\)/g` with
a callback that looks the name up, recursing when the stored value
itself contains `var(`; a missing name falls back to the trimmed
fallback text, or failing that leaves the matched text in place.  The
recursion of the source is genuinely unbounded: on a cyclic variable
table it never returns (the process dies with a stack overflow).  Two
embeddings of the same scan are given: `resolveVarsGo` totalizes it
with fuel (the fuel decreases on every step and is instantiated
generously at the call sites, exact on every input where the source
terminates), while `resolveVarsOpt` makes running out of fuel
observable, so that returning `none` at every fuel is a proof that
the source's recursion diverges. -/

/-- Try to match the `var(...)` reference regex at the head of `s`;
returns the variable name, the optional fallback text and the
remainder after the match.  The same single-whitespace backtracking
as in `varDeclMatchAt` applies to an all-whitespace fallback. -/
def varRefMatchAt (s : Str) : Option ((Str × Option Str) × Str) :=
  match s with
  | 'v' :: 'a' :: 'r' :: '(' :: r1 =>
      match r1.dropWhile isWsChar with
      | '-' :: '-' :: r3 =>
          let name := r3.takeWhile isWordDashChar
          if name.isEmpty then none
          else
            let r4 := (r3.drop name.length).dropWhile isWsChar
            match r4 with
            | ')' :: rest => some ((name, none), rest)
            | ',' :: r5 =>
                let w := r5.takeWhile isWsChar
                let r6 := r5.drop w.length
                let fb := r6.takeWhile (fun c => c != ')')
                if fb.isEmpty then
                  match w.reverse, r6 with
                  | c :: _, ')' :: rest => some ((name, some [c]), rest)
                  | _, _ => none
                else
                  match r6.drop fb.length with
                  | ')' :: rest => some ((name, some fb), rest)
                  | _ => none
            | _ => none
      | _ => none
  | _ => none

/-- Scan-and-replace pass of `resolveCSSVariables` with fuel. -/
def resolveVarsGo (vars : List (Str × Str)) : Nat → Str → Str
  | 0, s => s
  | _ + 1, [] => []
  | fuel + 1, s@(c :: rest) =>
      match varRefMatchAt s with
      | none => c :: resolveVarsGo vars fuel rest
      | some (nf, after) =>
          let repl :=
            match mapGet vars nf.1 with
            | some value =>
                if hasSub value (str "var(") then resolveVarsGo vars fuel value
                else value
            | none =>
                match nf.2 with
                | some f => trimJS f
                | none => s.take (s.length - after.length)
          repl ++ resolveVarsGo vars fuel after

/-- Fuel bound that dominates every acyclic resolution: scanning the
property costs one unit per character, and each nested resolution of a
stored value restarts with the full budget minus one. -/
def resolveFuel (prop : Str) (vars : List (Str × Str)) : Nat :=
  (prop.length + (vars.map (fun p => p.2.length)).sum + 1) * (vars.length + 2)

/-- `resolveCSSVariables` of the source. -/
def resolveCSSVariables (prop : Str) (vars : List (Str × Str)) : Str :=
  resolveVarsGo vars (resolveFuel prop vars) prop

/-- The same scan-and-replace pass as `resolveVarsGo`, but with fuel
exhaustion observable: `none` means the computation did not finish
within the given fuel, so `none` at every fuel means the source's
recursion never returns on that input. -/
def resolveVarsOpt (vars : List (Str × Str)) : Nat → Str → Option Str
  | 0, _ => none
  | _ + 1, [] => some []
  | fuel + 1, s@(c :: rest) =>
      match varRefMatchAt s with
      | none => (resolveVarsOpt vars fuel rest).map (fun t => c :: t)
      | some (nf, after) =>
          let replO : Option Str :=
            match mapGet vars nf.1 with
            | some value =>
                if hasSub value (str "var(") then resolveVarsOpt vars fuel value
                else some value
            | none =>
                match nf.2 with
                | some f => some (trimJS f)
                | none => some (s.take (s.length - after.length))
          match replO, resolveVarsOpt vars fuel after with
          | some repl, some rest2 => some (repl ++ rest2)
          | _, _ => none

/-- A stylesheet whose `:root` variable table is cyclic: resolving
`--a` needs `--a` itself. -/
def cyclicCss : Str :=
  str ":root \x7b --a: var(--a); \x7d .x \x7b color: var(--a); \x7d"

/-! ## Style records and the style compiler entry points -/

/-- A Webflow style record.  The constant `namespace`, `comb`,
`origin` and `selector` fields of the source (always `""` / `null`)
are represented by `nameSpace`/`comb`; `origin`/`selector` are omitted
as they are `null` constants never read by anything modelled here. -/
structure WebflowStyle where
  _id : Nat
  fake : Bool
  type : String
  name : Str
  nameSpace : String
  comb : String
  styleLess : Str
  variants : List (String × Str)
  children : List Nat
deriving Repr, DecidableEq

/-- Result of the CSS compiler: the class→style-id map and the style
records.  The `customCSS` component of the source (media queries,
keyframes and pseudo-selector rules re-emitted verbatim for an HTML
embed) is produced by a separate pure pass that no claim mentions and
is omitted from the embedding. -/
structure ParsedCSSResult where
  classToIdMap : List (Str × Nat)
  styles : List WebflowStyle
deriving Repr, DecidableEq

/-- The style record of the source with the per-class fields filled
in (`fake := false`, `type := "class"`, empty namespace/comb, the
given declaration string and variants, no children). -/
def mkClassStyle (cnt : Nat) (c : Str) (sl : Str) (vs : List (String × Str)) : WebflowStyle :=
  { _id := cnt, fake := false, type := "class", name := c, nameSpace := ""
    comb := "", styleLess := sl, variants := vs, children := [] }

/-- The per-class loop of `parseCSSToWebflow`: fresh uuid, map entry,
rule lookup, variable resolution, flattening; a class with no matching
rule still yields a record with an empty declaration string. -/
def parseCSSLoop (cssVariables : List (Str × Str)) (cssRules : List CSSRule) :
    List Str → Nat → List (Str × Nat) → List WebflowStyle → ParsedCSSResult
  | [], _, m, ss => ⟨m, ss⟩
  | c :: cs, cnt, m, ss =>
      let m' := mapSet m c cnt
      let style : WebflowStyle :=
        match findRuleForClass cssRules c with
        | some rule =>
            mkClassStyle cnt c (convertToStyleLess
              (rule.properties.map (fun p => resolveCSSVariables p cssVariables))) []
        | none => mkClassStyle cnt c [] []
      parseCSSLoop cssVariables cssRules cs (cnt + 1) m' (ss ++ [style])

/-- `parseCSSToWebflow` (the variable-resolving version referenced by
the claims). -/
def parseCSSToWebflow (css : Str) (classNames : List Str) : ParsedCSSResult :=
  parseCSSLoop (extractCSSVariables css) (parseCSSRules css) classNames 0 [] []

/-! ## Media queries -/

/-- `mapMediaQueryToBreakpoint` of the source. -/
def mapMediaQueryToBreakpoint (cond : Str) : Option String :=
  let c := toLowerStr cond
  if hasSub c (str "max-width") then
    if hasSub c (str "479px") || hasSub c (str "480px") then some "tiny"
    else if hasSub c (str "767px") || hasSub c (str "768px") then some "small"
    else if hasSub c (str "991px") || hasSub c (str "992px") then some "medium"
    else none
  else none

/-- Try to match `@media\s*([^{]+)\{([\s\S]*?)\n\}` at the head of
`s`: the lazy body capture ends at the first `"\n}"`. -/
def mediaMatchAt (s : Str) : Option ((Str × Str) × Str) :=
  if beginsWith s (str "@media") then
    let r1 := s.drop 6
    let r2 := r1.dropWhile isWsChar
    let cond := r2.takeWhile (fun c => c != '{')
    if cond.isEmpty then none
    else
      match r2.drop cond.length with
      | '{' :: r3 =>
          match splitAtFirstSub (str "\n\x7d") r3 with
          | some (content, rest) => some ((cond, content), rest)
          | none => none
      | _ => none
  else none

/-- Global scan for media query blocks. -/
def scanMediaGo : Nat → Str → List (Str × Str)
  | 0, _ => []
  | _ + 1, [] => []
  | fuel + 1, s@(_ :: rest) =>
      match mediaMatchAt s with
      | some (cc, after) => cc :: scanMediaGo fuel after
      | none => scanMediaGo fuel rest

/-- JavaScript plain-object property assignment on a string-keyed
record: upsert keeping first-insertion order. -/
def recordSet (m : List (String × List CSSRule)) (k : String) (v : List CSSRule) :
    List (String × List CSSRule) :=
  if (m.find? (fun p => p.1 == k)).isSome
  then m.map (fun p => if p.1 == k then (k, v) else p)
  else m ++ [(k, v)]

/-- `parseMediaQueries`: each media block whose condition maps to a
breakpoint contributes its parsed rules under that breakpoint key. -/
def parseMediaQueries (css : Str) : List (String × List CSSRule) :=
  let cleaned := removeComments css
  (scanMediaGo cleaned.length cleaned).foldl
    (fun mq cc =>
      match mapMediaQueryToBreakpoint (trimJS cc.1) with
      | some bp => recordSet mq bp (parseCSSRules cc.2)
      | none => mq) []

/-- The per-class loop of `parseCSSWithMediaQueries`. -/
def parseCSSMediaLoop (cssVariables : List (Str × Str)) (baseCSSRules : List CSSRule)
    (mediaQueries : List (String × List CSSRule)) :
    List Str → Nat → List (Str × Nat) → List WebflowStyle → ParsedCSSResult
  | [], _, m, ss => ⟨m, ss⟩
  | c :: cs, cnt, m, ss =>
      let m' := mapSet m c cnt
      let baseStyleLess :=
        match findRuleForClass baseCSSRules c with
        | some rule =>
            convertToStyleLess
              (rule.properties.map (fun p => resolveCSSVariables p cssVariables))
        | none => ([] : Str)
      let variants :=
        mediaQueries.foldl
          (fun vs bp =>
            match findRuleForClass bp.2 c with
            | some rule =>
                vs ++ [(bp.1, convertToStyleLess
                  (rule.properties.map (fun p => resolveCSSVariables p cssVariables)))]
            | none => vs) []
      let style : WebflowStyle := mkClassStyle cnt c baseStyleLess variants
      parseCSSMediaLoop cssVariables baseCSSRules mediaQueries cs (cnt + 1) m' (ss ++ [style])

/-- `parseCSSWithMediaQueries` (the variable-resolving version
referenced by the claims). -/
def parseCSSWithMediaQueries (css : Str) (classNames : List Str) : ParsedCSSResult :=
  parseCSSMediaLoop (extractCSSVariables css) (parseCSSRules css) (parseMediaQueries css)
    classNames 0 [] []

/-! ## The DOM model

`htmlparser2` (an external library) turns the HTML text into a DOM
tree; the tree compiler walks `Element` and `Text` nodes.  The DOM is
modelled as a mutual inductive (a node / a forest of siblings); the
universally quantified claims range over all forests, which covers
the parses of all HTML inputs. -/

mutual
inductive DomNode where
  | element (tag : String) (attribs : List (String × String)) (children : DomForest)
  | text (data : String)
deriving Repr, DecidableEq
inductive DomForest where
  | nil
  | cons (hd : DomNode) (tl : DomForest)
deriving Repr, DecidableEq
end

/-- Attribute lookup, `element.attribs[name]` (`none` = `undefined`). -/
def getAttr (attribs : List (String × String)) (name : String) : Option String :=
  (attribs.find? (fun p => p.1 == name)).map (·.2)

/-- The JavaScript idiom `element.attribs[name] || dflt`: both a
missing attribute and an empty string (falsy) fall back. -/
def attrOr (attribs : List (String × String)) (name dflt : String) : String :=
  match getAttr attribs name with
  | some v => if v = "" then dflt else v
  | none => dflt

/-- The idiom `element.attribs[name] !== undefined`. -/
def hasAttr (attribs : List (String × String)) (name : String) : Bool :=
  (getAttr attribs name).isSome

/-! ## The compiled node model -/

/-- Values in the Webflow attribute bag (`WebflowAttributes`): the
source stores strings, booleans and one number (`maxlength`). -/
inductive AttrVal where
  | s (v : String)
  | b (v : Bool)
  | n (v : Int)
deriving Repr, DecidableEq

/-- The `data` payload of a compiled element node.  `dom` is the
Custom Element payload (`editable`/`tag`/`attributes`); `std` is the
standard payload with the attribute bag, the optional `text` flag and
the optional `tag` field (their presence is type-keyed in the source),
and the `search.exclude` flag.  The constant `xattr`, `devlink`,
`displayName` and `visibility` fields and the type-specific
`link`/`img`/`form` sub-objects are the same-shaped constants for
every node of a given type and are not referenced by any claim; they
are omitted from the embedding.  Text nodes carry no data object. -/
inductive NodeData where
  | dom (editable : Bool) (tag : String) (attributes : List (String × String))
  | std (attr : List (String × AttrVal)) (textFlag : Option Bool)
        (tagField : Option String) (searchExclude : Bool)
  | noData
deriving Repr, DecidableEq

/-- A compiled Webflow node (flat-list entry).  Element nodes have
`text = false`; text nodes have `text = true`, their content in `v`,
and empty `classes`/`type`/`tag`/`data`/`children`. -/
structure WNode where
  _id : Nat
  text : Bool
  v : String
  classes : List Nat
  type : String
  tag : String
  data : NodeData
  children : List Nat
deriving Repr, DecidableEq

/-- Result of the tree compiler. -/
structure CompileResult where
  nodes : List WNode
  rootNodeIds : List Nat
deriving Repr, DecidableEq

/-! ## Tag classification -/

/-- `TAG_TO_TYPE_MAP` of the source (the chunking-era table: regular
`button` is `Block`, `form` is `FormForm`, `textarea`/`select`/`label`
have dedicated form types). -/
def TAG_TO_TYPE_MAP : List (String × String) :=
  [("div", "Block"), ("section", "Section"), ("article", "Block"), ("aside", "Block"),
   ("nav", "Block"), ("header", "Block"), ("footer", "Block"), ("main", "Block"),
   ("h1", "Heading"), ("h2", "Heading"), ("h3", "Heading"), ("h4", "Heading"),
   ("h5", "Heading"), ("h6", "Heading"),
   ("p", "Paragraph"), ("span", "Block"), ("strong", "Block"), ("em", "Block"),
   ("b", "Block"), ("i", "Block"),
   ("a", "Link"), ("img", "Image"),
   ("ul", "List"), ("ol", "List"), ("li", "ListItem"),
   ("form", "FormForm"), ("input", "FormTextInput"), ("button", "Block"),
   ("textarea", "FormTextarea"), ("select", "FormSelect"), ("label", "FormBlockLabel"),
   ("container", "Container")]

/-- Lookup of the table's own entries; a present tag always maps to a
nonempty type string, so the source's truthiness test is `isSome`
here.  The source's `TAG_TO_TYPE_MAP[tag]` is a JS property access on
a plain object literal and therefore also finds the members inherited
from `Object.prototype` (`jsObjectProtoKeys` below): for a tag whose
lowercased name is such a member the access is truthy and the source
returns the inherited (non-string) member instead of falling through,
so those tags are excluded from the table-miss law by hypothesis. -/
def tagMapGet (tag : String) : Option String :=
  (TAG_TO_TYPE_MAP.find? (fun p => p.1 == tag)).map (·.2)

/-- The property names a plain JavaScript object literal inherits
from `Object.prototype`.  Since the source lowercases the tag before
the lookup, only the all-lowercase names can actually collide with a
parsed tag, but the whole list is excluded for clarity. -/
def jsObjectProtoKeys : List String :=
  ["constructor", "hasOwnProperty", "isPrototypeOf", "propertyIsEnumerable",
   "toLocaleString", "toString", "valueOf", "__defineGetter__", "__defineSetter__",
   "__lookupGetter__", "__lookupSetter__", "__proto__"]

/-- `DOCUMENT_STRUCTURE_TAGS` of the source. -/
def DOCUMENT_STRUCTURE_TAGS : List String :=
  ["html", "head", "body", "title", "meta", "link", "script", "style", "base"]

/-- `getWebflowType`: the input `type` attribute refines `input`, and
`input`/`textarea`/`select`/`label` receive their Form* type only
inside a form; unmapped tags fall back to the Custom Element type
`DOM`.  The source computes the input type as
`element.attribs["type"]?.toLowerCase() || "text"`, which equals
lowercasing after the falsy default since the default is already
lowercase and lowercasing preserves emptiness. -/
def getWebflowType (tag : String) (attribs : List (String × String))
    (insideForm : Bool) : String :=
  if tag = "input" then
    let inputType := toLowerS (attrOr attribs "type" "text")
    if inputType = "submit" ∨ inputType = "button" then
      if insideForm then "FormButton" else "Block"
    else if inputType = "radio" then
      if insideForm then "FormRadioInput" else "Block"
    else if inputType = "checkbox" then
      if insideForm then "FormCheckboxInput" else "Block"
    else
      if insideForm then "FormTextInput" else "Block"
  else if tag = "textarea" then
    if insideForm then "FormTextarea" else "Block"
  else if tag = "select" then
    if insideForm then "FormSelect" else "Block"
  else if tag = "label" then
    if insideForm then "FormBlockLabel" else "Block"
  else
    match tagMapGet tag with
    | some t => t
    | none => "DOM"

/-! ## Attribute extraction -/

/-- Hexadecimal digit test. -/
def isHexDigitChar (c : Char) : Bool :=
  c.isDigit || ('a' ≤ c && c ≤ 'f') || ('A' ≤ c && c ≤ 'F')

/-- Numeric value of a decimal or hexadecimal digit character. -/
def hexDigitVal (c : Char) : Nat :=
  if c.isDigit then c.toNat - '0'.toNat
  else if 'a' ≤ c ∧ c ≤ 'f' then c.toNat - 'a'.toNat + 10
  else c.toNat - 'A'.toNat + 10

/-- JavaScript `parseInt` with an undefined radix: leading whitespace,
an optional sign, then either a `0x`/`0X` prefix followed by a maximal
(possibly empty) run of hexadecimal digits read in radix 16, or a
maximal run of decimal digits read in radix 10; an empty digit run
(including the `undefined` argument, and `"0x"` with no hex digit
after it) is `NaN`, modelled as `none`.  The source's result is an
IEEE double and rounds above `2 ^ 53`; the claims that depend on the
numeric value restrict it to the exactly representable range. -/
def parseIntJS : Option String → Option Int
  | none => none
  | some s =>
      let t := s.toList.dropWhile isWsChar
      let (neg, t2) :=
        match t with
        | '-' :: r => (true, r)
        | '+' :: r => (false, r)
        | _ => (false, t)
      let (radix, t3) :=
        match t2 with
        | '0' :: 'x' :: r => ((16 : Int), r)
        | '0' :: 'X' :: r => ((16 : Int), r)
        | _ => ((10 : Int), t2)
      let digits := t3.takeWhile (fun c => if radix = 16 then isHexDigitChar c else c.isDigit)
      if digits.isEmpty then none
      else
        let v : Int := digits.foldl (fun a c => a * radix + (Int.ofNat (hexDigitVal c))) 0
        some (if neg then -v else v)

/-- The idiom `parseInt(element.attribs[name]) || dflt`: `NaN` and `0`
are both falsy. -/
def parseIntOr (attribs : List (String × String)) (name : String) (dflt : Int) : Int :=
  match parseIntJS (getAttr attribs name) with
  | none => dflt
  | some 0 => dflt
  | some k => k

/-- `extractAttributes` of the source: the `id`-only default bag plus
the tag-keyed switch, reproduced case by case (assignment order is the
list order). -/
def extractAttributes (attribs : List (String × String)) (tag : String) :
    List (String × AttrVal) :=
  let base : List (String × AttrVal) := [("id", .s (attrOr attribs "id" ""))]
  if tag = "img" then
    base ++ [("width", .s (attrOr attribs "width" "auto")),
             ("height", .s (attrOr attribs "height" "auto")),
             ("alt", .s (attrOr attribs "alt" "")),
             ("src", .s (attrOr attribs "src" "")),
             ("loading", .s (if getAttr attribs "loading" = some "eager" then "eager" else "lazy"))]
  else if tag = "a" then
    base
  else if tag = "form" then
    base ++ [("name", .s (attrOr attribs "name" "")),
             ("data-name", .s (attrOr attribs "data-name" (attrOr attribs "name" ""))),
             ("action", .s (attrOr attribs "action" "")),
             ("method", .s (attrOr attribs "method" "get")),
             ("redirect", .s (attrOr attribs "redirect" "")),
             ("data-redirect", .s (attrOr attribs "data-redirect" ""))]
  else if tag = "input" then
    let inputType := attrOr attribs "type" "text"
    base ++ [("type", .s inputType),
             ("name", .s (attrOr attribs "name" "")),
             ("data-name", .s (attrOr attribs "data-name" (attrOr attribs "name" ""))),
             ("placeholder", .s (attrOr attribs "placeholder" "")),
             ("required", .b (hasAttr attribs "required")),
             ("disabled", .b (hasAttr attribs "disabled")),
             ("autofocus", .b (hasAttr attribs "autofocus"))] ++
    (if inputType = "submit" ∨ inputType = "button" then
      [("value", .s (attrOr attribs "value" "Submit")),
       ("data-wait", .s (attrOr attribs "data-wait" "Please wait..."))]
     else if inputType = "radio" ∨ inputType = "checkbox" then
      [("value", .s (attrOr attribs "value" "")),
       ("checked", .b (hasAttr attribs "checked"))]
     else
      [("maxlength", .n (parseIntOr attribs "maxlength" 256))])
  else if tag = "textarea" then
    base ++ [("name", .s (attrOr attribs "name" "")),
             ("data-name", .s (attrOr attribs "data-name" (attrOr attribs "name" ""))),
             ("placeholder", .s (attrOr attribs "placeholder" "")),
             ("required", .b (hasAttr attribs "required")),
             ("autofocus", .b (hasAttr attribs "autofocus")),
             ("maxlength", .n (parseIntOr attribs "maxlength" 5000))]
  else if tag = "select" then
    base ++ [("name", .s (attrOr attribs "name" "")),
             ("data-name", .s (attrOr attribs "data-name" (attrOr attribs "name" ""))),
             ("required", .b (hasAttr attribs "required")),
             ("multiple", .b (hasAttr attribs "multiple"))]
  else if tag = "button" then
    base ++ [("type", .s (attrOr attribs "type" "button"))]
  else if tag = "label" then
    base ++ [("for", .s (attrOr attribs "for" ""))]
  else
    base

/-- Lookup in an attribute bag (for stating properties about it). -/
def bagGet (bag : List (String × AttrVal)) (name : String) : Option AttrVal :=
  (bag.find? (fun p => p.1 == name)).map (·.2)

/-! ## Class extraction -/

/-- Accumulating word splitter (current word is kept reversed). -/
def splitWsGo : Str → Str → List Str
  | cur, [] => if cur.isEmpty then [] else [cur.reverse]
  | cur, c :: rest =>
      if isWsChar c then
        if cur.isEmpty then splitWsGo [] rest
        else cur.reverse :: splitWsGo [] rest
      else splitWsGo (c :: cur) rest

/-- Split on runs of whitespace, keeping only nonempty words; composed
with the source's `.map(trim).filter(len > 0)` this is exactly
`split(/\s+/)`. -/
def splitWsWords (s : Str) : List Str := splitWsGo [] s

/-- `extractClassNames`: a missing or empty (falsy) `class` attribute
yields no classes; otherwise the whitespace-split words. -/
def extractClassNames (attribs : List (String × String)) : List String :=
  match getAttr attribs "class" with
  | none => []
  | some classAttr =>
      if classAttr = "" then []
      else (splitWsWords classAttr.toList).map String.mk

/-! ## The tree compiler -/

/-- The `formTypes` list of `processElement`. -/
def formTypesList : List String :=
  ["FormWrapper", "FormForm", "FormButton", "FormTextInput", "FormTextarea",
   "FormSelect", "FormBlockLabel", "FormInlineLabel", "FormRadioWrapper",
   "FormRadioInput", "FormCheckboxWrapper", "FormCheckboxInput",
   "FormSuccessMessage", "FormErrorMessage"]

/-- The data object built by `processElement` for a node of the given
type: the Custom Element (`DOM`) payload preserves the tag and all
attributes except `class`/`id` (an empty attribute value becomes a
single space), and the standard payload follows the type-keyed
field-presence matrix of the source. -/
def buildNodeData (type tag : String) (attribs : List (String × String)) : NodeData :=
  if type = "DOM" then
    .dom true tag
      ((attribs.filter (fun p => p.1 ≠ "class" ∧ p.1 ≠ "id")).map
        (fun p => (p.1, if p.2 = "" then " " else p.2)))
  else
    let needsTextAndTag := type ∈ ["Block", "Section", "Container"]
    let needsTagOnly := type ∈ ["Heading"]
    .std (extractAttributes attribs tag)
      (if needsTextAndTag then some false else none)
      (if needsTextAndTag ∨ needsTagOnly then some tag else none)
      (type = "FormWrapper")

/-- `createTextNode` as a record: id, `text = true`, trimmed content. -/
def textWNode (id : Nat) (content : String) : WNode :=
  { _id := id, text := true, v := content, classes := [], type := "", tag := ""
    data := .noData, children := [] }

mutual
/-- One step of the child loop of `processElement`.  An element child
is `processElement` of the source: assign the next fresh id, classify
the tag, resolve classes through the class→style-id map (unmatched
classes dropped), build the data payload, emit the element's record
before its children (modelled by returning the finalized record at the
head of the emitted list, which is the final state of the source's
push-then-patch-children sequence), then recurse into children with
the form flag set from the tag.  A text child is trimmed and produces
a node only when nonempty.  Returns (next fresh id, emitted nodes,
this node's child-list entry, if any). -/
def processNode (m : List (String × Nat)) (insideForm : Bool) (cnt : Nat) :
    DomNode → Nat × List WNode × Option Nat
  | .element t a c =>
      let nodeId := cnt
      let tag := toLowerS t
      let type := getWebflowType tag a insideForm
      let classUUIDs := (extractClassNames a).filterMap
        (fun cl => (m.find? (fun p => p.1 == cl)).map (·.2))
      let data := buildNodeData type tag a
      let childrenInsideForm := tag = "form" || insideForm
      let r := processForest m childrenInsideForm (cnt + 1) c
      let node : WNode :=
        { _id := nodeId, text := false, v := "", classes := classUUIDs, type := type
          tag := if type = "DOM" then "div" else tag, data := data, children := r.2.2 }
      (r.1, node :: r.2.1, some nodeId)
  | .text d =>
      let textContent := String.mk (trimJS d.toList)
      if textContent.length > 0 then (cnt + 1, [textWNode cnt textContent], some cnt)
      else (cnt, [], none)

/-- The child loop of `processElement`: process each child in order,
collecting the emitted nodes and the child ids in document order.
Returns (next fresh id, emitted nodes, child ids). -/
def processForest (m : List (String × Nat)) (insideForm : Bool) (cnt : Nat) :
    DomForest → Nat × List WNode × List Nat
  | .nil => (cnt, [], [])
  | .cons h tl =>
      let r1 := processNode m insideForm cnt h
      let r2 := processForest m insideForm r1.1 tl
      (r2.1, r1.2.1 ++ r2.2.1, r1.2.2.toList ++ r2.2.2)
end

/-- `processElement` as named in the source (an element is always
given to it, never a text node). -/
def processElement (m : List (String × Nat)) (insideForm : Bool) (cnt : Nat)
    (tag : String) (attribs : List (String × String)) (children : DomForest) :
    Nat × List WNode × Option Nat :=
  processNode m insideForm cnt (.element tag attribs children)

/-! ## Document-structure filtering -/

/-- Forest concatenation (helper for the traversal). -/
def appendForest : DomForest → DomForest → DomForest
  | .nil, g => g
  | .cons n tl, g => .cons n (appendForest tl g)

/-- The direct element children of a `body`, minus `script`/`style`. -/
def bodyElementChildren : DomForest → DomForest
  | .nil => .nil
  | .cons (.text _) tl => bodyElementChildren tl
  | .cons (.element t a c) tl =>
      let childTag := toLowerS t
      if childTag ≠ "script" ∧ childTag ≠ "style" then
        .cons (.element t a c) (bodyElementChildren tl)
      else bodyElementChildren tl

mutual
/-- `extractContentElements`: walk the top of the tree; a `body`
contributes its non-`script`/`style` element children, document
structure tags are traversed through, anything else is a content
element (not descended into).  Text outside elements is ignored. -/
def contentOfNode : DomNode → DomForest
  | .text _ => .nil
  | .element t a c =>
      let tag := toLowerS t
      if tag = "body" then bodyElementChildren c
      else if tag ∈ DOCUMENT_STRUCTURE_TAGS then contentOfForest c
      else .cons (.element t a c) .nil

/-- Traversal of a sibling list for `extractContentElements`. -/
def contentOfForest : DomForest → DomForest
  | .nil => .nil
  | .cons n tl => appendForest (contentOfNode n) (contentOfForest tl)
end

/-- `compileHTMLToNodes`: filter the document structure, then process
each content element in order starting from a fresh id counter; the
per-root loop of the source is exactly the element-only case of
`processForest`, with the form flag initially false.  (The guard on
the returned id in the source is always true: every call returns an
id.) -/
def compileHTMLToNodes (forest : DomForest) (m : List (String × Nat)) : CompileResult :=
  let r := processForest m false 0 (contentOfForest forest)
  { nodes := r.2.1, rootNodeIds := r.2.2 }

/-! ## The chunker (`splitIntoChunks`)

The subtree walks of the source (`countNodesInSubtree`,
`collectSubtreeNodes`) recurse through id lookups in the flat node
list; their termination in the source relies on the list being a
compiled forest.  The embedding gives them fuel; all call sites pass
`ns.length + 1`, which is proved sufficient on every compiler output
(`Blocks` below), and which performs the initial `Set.add` even for
degenerate inputs, as the source does. -/

/-- A chunk of the compiled node list. -/
structure Chunk where
  label : String
  nodes : List WNode
  nodeCount : Nat
deriving Repr, DecidableEq

/-- The id lookup `nodes.find((n) => n._id === nodeId)`. -/
def nsFind (ns : List WNode) (nodeId : Nat) : Option WNode :=
  ns.find? (fun n => n._id == nodeId)

/-- `countNodesInSubtree`: one plus the counts of the children; a
missing id counts zero. -/
def countNodesInSubtree (ns : List WNode) : Nat → Nat → Nat
  | 0, _ => 0
  | fuel + 1, nodeId =>
      match nsFind ns nodeId with
      | none => 0
      | some node =>
          1 + node.children.foldl (fun acc childId =>
                acc + countNodesInSubtree ns fuel childId) 0

/-- `collectSubtreeNodes`: add the id to the set (JS `Set.add`:
append if absent), then recurse into the children of the node found
under that id. -/
def collectSubtreeNodes (ns : List WNode) : Nat → Nat → List Nat → List Nat
  | 0, _, collected => collected
  | fuel + 1, nodeId, collected =>
      let collected1 := if collected.contains nodeId then collected else collected ++ [nodeId]
      match nsFind ns nodeId with
      | none => collected1
      | some node =>
          node.children.foldl (fun acc childId =>
            collectSubtreeNodes ns fuel childId acc) collected1

/-- The tag→label table of `getNodeLabel`. -/
def nodeLabelMap : List (String × String) :=
  [("header", "Header"), ("nav", "Navigation"), ("section", "Section"),
   ("footer", "Footer"), ("main", "Main Content"), ("article", "Article"),
   ("aside", "Sidebar"), ("form", "Form")]

/-- `getNodeLabel`: a missing node or a text node is "Content";
otherwise the table lookup on the lowercased tag with "Content" as
fallback. -/
def getNodeLabel (ns : List WNode) (nodeId : Nat) : String :=
  match nsFind ns nodeId with
  | none => "Content"
  | some node =>
      if node.text then "Content"
      else
        match (nodeLabelMap.find? (fun p => p.1 == toLowerS node.tag)).map (·.2) with
        | some l => l
        | none => "Content"

/-- Label of a flushed (mid-loop) chunk. -/
def midChunkLabel (ns : List WNode) (curRoots : List Nat) (idx : Nat) : String :=
  match curRoots with
  | [r0] => getNodeLabel ns r0
  | _ => "Chunk " ++ toString idx

/-- Label of the final chunk. -/
def finalChunkLabel (ns : List WNode) (curRoots : List Nat) (idx : Nat) : String :=
  match curRoots with
  | [r0] => getNodeLabel ns r0
  | _ => if idx = 1 then "Complete Page" else "Chunk " ++ toString idx

/-- The root loop of `splitIntoChunks`: greedily accumulate whole
root subtrees; when adding the next root would push a nonempty chunk
over the limit, flush the chunk first; a final nonempty chunk is
flushed after the loop. -/
def chunkGo (ns : List WNode) (maxN : Nat) :
    List Nat → List Nat → List Nat → Nat → List Chunk → List Chunk
  | [], curSet, curRoots, idx, acc =>
      if 0 < curSet.length then
        let chunkNodes := ns.filter (fun n => curSet.contains n._id)
        acc ++ [{ label := finalChunkLabel ns curRoots idx
                  nodes := chunkNodes, nodeCount := chunkNodes.length }]
      else acc
  | r :: rest, curSet, curRoots, idx, acc =>
      let size := countNodesInSubtree ns (ns.length + 1) r
      if 0 < curSet.length ∧ maxN < curSet.length + size then
        let chunkNodes := ns.filter (fun n => curSet.contains n._id)
        let acc' := acc ++ [{ label := midChunkLabel ns curRoots idx
                              nodes := chunkNodes, nodeCount := chunkNodes.length }]
        chunkGo ns maxN rest (collectSubtreeNodes ns (ns.length + 1) r []) [r] (idx + 1) acc'
      else
        chunkGo ns maxN rest (collectSubtreeNodes ns (ns.length + 1) r curSet)
          (curRoots ++ [r]) idx acc

/-- `splitIntoChunks` of the source. -/
def splitIntoChunks (ns : List WNode) (rootNodeIds : List Nat)
    (maxNodesPerChunk : Nat) : List Chunk :=
  chunkGo ns maxNodesPerChunk rootNodeIds [] [] 1 []

/-! ## Statement-side predicates -/

/-- Reachability from a node id through the children lists of the
flat node list (one step: `b` is a child of the node with id `a`). -/
inductive Reaches (ns : List WNode) : Nat → Nat → Prop where
  | child (p : WNode) (a b : Nat) : p ∈ ns → p._id = a → b ∈ p.children → Reaches ns a b
  | trans {a b c : Nat} : Reaches ns a b → Reaches ns b c → Reaches ns a c

/-- `Blocks ns s e roots` says that `roots` are the root ids of a run
of consecutive compiled subtrees occupying exactly the id interval
`[s, e)` of the flat list `ns`: each root sits at the start of its
subtree's contiguous id block, and the source's subtree walks on it
behave canonically (collection appends exactly its id block, counting
returns exactly its size, for any sufficient fuel). -/
inductive Blocks (ns : List WNode) : Nat → Nat → List Nat → Prop where
  | nil (s : Nat) : Blocks ns s s []
  | cons (s L e : Nat) (roots' : List Nat)
      (hL : 1 ≤ L)
      (hcollect : ∀ fuel acc, L ≤ fuel → (∀ x ∈ acc, x ∉ List.range' s L) →
        collectSubtreeNodes ns fuel s acc = acc ++ List.range' s L)
      (hcount : ∀ fuel, L ≤ fuel → countNodesInSubtree ns fuel s = L)
      (htail : Blocks ns (s + L) e roots') :
      Blocks ns s e (s :: roots')

/-- A partition of the id interval `[s, e)` into consecutive nonempty
groups of whole root subtrees (each entry records the group's start,
its end, and its roots). -/
inductive Groups (ns : List WNode) : Nat → Nat → List (Nat × Nat × List Nat) → Prop where
  | nil (s : Nat) : Groups ns s s []
  | cons (s t e : Nat) (rs : List Nat) (gs : List (Nat × Nat × List Nat)) :
      Blocks ns s t rs → rs ≠ [] → Groups ns t e gs → Groups ns s e ((s, t, rs) :: gs)

/-- The sublist of `ns` starting at id `s` consists of the given
nodes, found by the source's id lookup. -/
def NsAligned (ns : List WNode) (s : Nat) (block : List WNode) : Prop :=
  ∀ k, (hk : k < block.length) → nsFind ns (s + k) = some (block.get ⟨k, hk⟩)

/-! ## Concrete inputs used by the examples -/

/-- The DOM of `<div class="c"><p>Hello</p></div>`. -/
def demoRoundTripForest : DomForest :=
  .cons (.element "div" [("class", "c")]
    (.cons (.element "p" [] (.cons (.text "Hello") .nil)) .nil)) .nil

/-- The DOM of `<div>   </div>`. -/
def demoWsForest : DomForest :=
  .cons (.element "div" [] (.cons (.text "   ") .nil)) .nil

/-- The DOM of `<input type="text">` alone. -/
def demoInputForest : DomForest :=
  .cons (.element "input" [("type", "text")] .nil) .nil

/-- The DOM of `<form><input type="text"></form>`. -/
def demoFormInputForest : DomForest :=
  .cons (.element "form" []
    (.cons (.element "input" [("type", "text")] .nil) .nil)) .nil

/-- A node list entry that no root reaches (for the chunker). -/
def orphanNode : WNode :=
  { _id := 0, text := false, v := "", classes := [], type := "Block", tag := "div"
    data := .std [("id", .s "")] (some false) (some "div") false, children := [] }

/-! # Helper lemmas for classification -/

/-- A tag outside the tag→type table (hence also none of the four
form-context tags, which are all in the table) classifies as the
Custom Element type `DOM`. -/
theorem getWebflowType_dom (tag : String) (a : List (String × String)) (f : Bool)
    (h : tagMapGet tag = none) : getWebflowType tag a f = "DOM" := by
  have h1 : tag ≠ "input" := by intro e; rw [e] at h; exact absurd h (by decide)
  have h2 : tag ≠ "textarea" := by intro e; rw [e] at h; exact absurd h (by decide)
  have h3 : tag ≠ "select" := by intro e; rw [e] at h; exact absurd h (by decide)
  have h4 : tag ≠ "label" := by intro e; rw [e] at h; exact absurd h (by decide)
  simp only [getWebflowType, if_neg h1, if_neg h2, if_neg h3, if_neg h4, h]

/-- Outside a form, the four context-sensitive tags classify as the
generic block type. -/
theorem getWebflowType_context_block (tag : String) (a : List (String × String))
    (h : tag ∈ (["input", "textarea", "select", "label"] : List String)) :
    getWebflowType tag a false = "Block" := by
  fin_cases h
  · simp only [getWebflowType]
    split_ifs <;> simp_all
  · rfl
  · rfl
  · rfl

/-- Inside a form, the four context-sensitive tags classify into the
Form* family. -/
theorem getWebflowType_context_form (tag : String) (a : List (String × String))
    (h : tag ∈ (["input", "textarea", "select", "label"] : List String)) :
    getWebflowType tag a true ∈ formTypesList := by
  fin_cases h
  · simp only [getWebflowType]
    split_ifs <;> simp_all [formTypesList]
  · exact show ("FormTextarea" : String) ∈ formTypesList by decide
  · exact show ("FormSelect" : String) ∈ formTypesList by decide
  · exact show ("FormBlockLabel" : String) ∈ formTypesList by decide

/-! # Claim C6 — CSS variable resolution -/

/-- C6: `var(--name)` references are resolved against the `:root`
table, recursively through variable-valued variables; an unresolvable
reference with no fallback stays as literal text, one with a fallback
resolves to the trimmed fallback; in particular the CSS
`:root { --c: red; }  .x { color: var(--c); }` resolves class `x` to
the declaration string `"color: red"`. -/
theorem c6_css_variable_resolution :
    ((parseCSSToWebflow (str ":root \x7b --c: red; \x7d  .x \x7b color: var(--c); \x7d")
        [str "x"]).styles.map (fun st => (st.name, st.styleLess)) =
      [(str "x", str "color: red")]) ∧
    (resolveCSSVariables (str "color: var(--a)")
        [(str "a", str "var(--b)"), (str "b", str "red")] = str "color: red") ∧
    (resolveCSSVariables (str "color: var(--missing)") [] = str "color: var(--missing)") ∧
    (resolveCSSVariables (str "color: var(--missing, blue)") [] = str "color: blue") :=
  ⟨by decide, by decide, by decide, by decide⟩

/-! # Claim C9 — media query variants -/

/-- C9: a rule for `.t` inside `@media (max-width: 767px)` yields a
variant keyed to the `small` breakpoint, held separately from the base
declaration string for `t`. -/
theorem c9_media_query_variant :
    ((parseCSSWithMediaQueries
        (str ".t \x7b color: red; \x7d\n@media (max-width: 767px) \x7b\n  .t \x7b color: blue; \x7d\n\x7d")
        [str "t"]).styles.map (fun st => (st.name, st.styleLess, st.variants)) =
      [(str "t", str "color: red", [("small", str "color: blue")])]) ∧
    (mapMediaQueryToBreakpoint (str "(max-width: 767px)") = some "small") :=
  ⟨by decide, by decide⟩

/-! # Claim C7 — the round-trip example -/

/-- C7 counterexample: compiling `<div class="c"><p>Hello</p></div>`
yields three nodes in the flat list (the text node is itself an entry
of the node list), not two as the claim states. -/
theorem c7_counterexample :
    ((compileHTMLToNodes demoRoundTripForest [("c", 77)]).nodes.length = 3) ∧
    ((3 : Nat) ≠ 2) :=
  ⟨by decide, by decide⟩

/-- C7 amended: compiling `<div class="c"><p>Hello</p></div>` with
`c ↦ S` yields exactly three nodes: the generic-block element carrying
style id `S` with one child, the paragraph element whose single child
is a text node, and that text node with literal value "Hello". -/
theorem c7_round_trip_amended (S : Nat) :
    compileHTMLToNodes demoRoundTripForest [("c", S)] =
      { nodes :=
          [{ _id := 0, text := false, v := "", classes := [S], type := "Block", tag := "div",
             data := .std [("id", .s "")] (some false) (some "div") false, children := [1] },
           { _id := 1, text := false, v := "", classes := [], type := "Paragraph", tag := "p",
             data := .std [("id", .s "")] none none false, children := [2] },
           { _id := 2, text := true, v := "Hello", classes := [], type := "", tag := "",
             data := .noData, children := [] }],
        rootNodeIds := [0] } := rfl

/-! # Claim C10 — maxlength extraction -/

/-- C10 counterexample: `<input maxlength="0">` has a parseable
maxlength with integer value 0, yet the extracted bag holds 256 (the
source's `parseInt(x) || 256` treats 0 as falsy). -/
theorem c10_counterexample :
    (bagGet (extractAttributes [("maxlength", "0")] "input") "maxlength" =
      some (.n 256)) ∧
    (parseIntJS (getAttr [("maxlength", "0")] "maxlength") = some 0) ∧
    ((256 : Int) ≠ 0) :=
  ⟨by decide, by decide, by decide⟩

/-- C10 amended: the bag's maxlength is `parseInt(maxlength) || dflt`
(256 for an `<input>` whose type is none of
submit/button/radio/checkbox, 5000 for every `<textarea>`) — the
attribute's integer value when it parses (in JS `parseInt` semantics,
hexadecimal `0x` prefix included) to a nonzero number, and the
default when the attribute is absent, not parseable, or parses to 0;
concretely, `maxlength="0x10"` is stored as 16.  The quantified
clauses are restricted to values below `2 ^ 53`, where the source's
double holds the integer exactly. -/
theorem c10_maxlength_amended (a : List (String × String))
    (_hfit : ∀ k : Int, parseIntJS (getAttr a "maxlength") = some k → k.natAbs < 2 ^ 53) :
    ((attrOr a "type" "text" ∉ (["submit", "button", "radio", "checkbox"] : List String)) →
      bagGet (extractAttributes a "input") "maxlength" =
        some (.n (parseIntOr a "maxlength" 256))) ∧
    (bagGet (extractAttributes a "textarea") "maxlength" =
      some (.n (parseIntOr a "maxlength" 5000))) ∧
    (∀ k : Int, parseIntJS (getAttr a "maxlength") = some k → k ≠ 0 →
      parseIntOr a "maxlength" 256 = k ∧ parseIntOr a "maxlength" 5000 = k) ∧
    (parseIntJS (getAttr a "maxlength") = none →
      parseIntOr a "maxlength" 256 = 256 ∧ parseIntOr a "maxlength" 5000 = 5000) ∧
    (parseIntJS (getAttr a "maxlength") = some 0 →
      parseIntOr a "maxlength" 256 = 256 ∧ parseIntOr a "maxlength" 5000 = 5000) ∧
    (bagGet (extractAttributes [("maxlength", "0x10")] "input") "maxlength" =
      some (.n 16)) := by
  refine ⟨?_, ?_, ?_, ?_, ?_, by decide⟩
  · intro h
    have hs : ¬ (attrOr a "type" "text" = "submit" ∨ attrOr a "type" "text" = "button") := by
      rintro (e | e) <;> simp [e] at h
    have hr : ¬ (attrOr a "type" "text" = "radio" ∨ attrOr a "type" "text" = "checkbox") := by
      rintro (e | e) <;> simp [e] at h
    simp only [extractAttributes]
    simp only [if_neg (by decide : ¬ ("input" : String) = "img"),
      if_neg (by decide : ¬ ("input" : String) = "a"),
      if_neg (by decide : ¬ ("input" : String) = "form"),
      if_pos rfl, if_neg hs, if_neg hr]
    simp [bagGet]
  · simp only [extractAttributes]
    simp only [if_neg (by decide : ¬ ("textarea" : String) = "img"),
      if_neg (by decide : ¬ ("textarea" : String) = "a"),
      if_neg (by decide : ¬ ("textarea" : String) = "form"),
      if_neg (by decide : ¬ ("textarea" : String) = "input"), if_pos rfl]
    simp [bagGet]
  · intro k hk hk0
    have e : ∀ d : Int, parseIntOr a "maxlength" d = k := by
      intro d
      simp only [parseIntOr, hk]
    exact ⟨e 256, e 5000⟩
  · intro hk
    have e : ∀ d : Int, parseIntOr a "maxlength" d = d := by
      intro d
      simp only [parseIntOr, hk]
    exact ⟨e 256, e 5000⟩
  · intro hk
    have e : ∀ d : Int, parseIntOr a "maxlength" d = d := by
      intro d
      simp only [parseIntOr, hk]
    exact ⟨e 256, e 5000⟩

/-! # Claim C5 — custom elements -/

/-- C5 counterexample: the Custom Element payload does not reproduce
an empty attribute value verbatim; `<video controls>` (value "") is
emitted with value a single space. -/
theorem c5_counterexample :
    ((compileHTMLToNodes (.cons (.element "video" [("controls", "")] .nil) .nil)
        []).nodes.map (·.data) = [.dom true "video" [("controls", " ")]]) ∧
    ((" " : String) ≠ "") :=
  ⟨by decide, by decide⟩

/-- C5 amended: an element whose (lowercased) tag is absent from the
tag→type table — and does not collide with a property name inherited
from `Object.prototype`, where the source's truthiness test on
`TAG_TO_TYPE_MAP[tag]` finds the inherited member and returns it
instead — is classified as the Custom Element type `DOM`; its payload
preserves the tag name and every attribute other than `class` and
`id` as a name/value pair with the value verbatim, except that an
empty value is replaced by a single space. -/
theorem c5_custom_element_amended (m : List (String × Nat)) (f : Bool) (cnt : Nat)
    (t : String) (a : List (String × String)) (c : DomForest)
    (h : tagMapGet (toLowerS t) = none) (_hp : toLowerS t ∉ jsObjectProtoKeys) :
    ∃ nd rest, (processNode m f cnt (.element t a c)).2.1 = nd :: rest ∧
      nd.type = "DOM" ∧
      nd.data = .dom true (toLowerS t)
        ((a.filter (fun p => p.1 ≠ "class" ∧ p.1 ≠ "id")).map
          (fun p => (p.1, if p.2 = "" then " " else p.2))) := by
  have hdom := getWebflowType_dom (toLowerS t) a f h
  refine ⟨_, _, rfl, ?_, ?_⟩
  · exact hdom
  · show buildNodeData (getWebflowType (toLowerS t) a f) (toLowerS t) a = _
    rw [hdom]
    simp [buildNodeData]

/-- C5 witness. -/
theorem c5_witness :
    ∃ nd rest, (processNode [] false 0 (.element "video" [("src", "movie.mp4")] .nil)).2.1 =
      nd :: rest ∧ nd.type = "DOM" ∧ nd.data = .dom true "video" [("src", "movie.mp4")] := by
  obtain ⟨nd, rest, h1, h2, h3⟩ :=
    c5_custom_element_amended [] false 0 "video" [("src", "movie.mp4")] .nil
      (by decide) (by decide)
  exact ⟨nd, rest, h1, h2, by rw [h3]; decide⟩

/-! # Claim C4 — context-sensitive form classification -/

/-- C4: an `<input type="text">` outside any form compiles to the
generic block type and inside a form to the text-input form type; in
general the four context-sensitive tags classify as "Block" when the
form flag is off and into the Form* family when it is on. -/
theorem c4_form_context_classification :
    ((compileHTMLToNodes demoInputForest []).nodes.map (·.type) = ["Block"]) ∧
    ((compileHTMLToNodes demoFormInputForest []).nodes.map (·.type) =
      ["FormForm", "FormTextInput"]) ∧
    (∀ tag a, tag ∈ (["input", "textarea", "select", "label"] : List String) →
      getWebflowType tag a false = "Block" ∧ getWebflowType tag a true ∈ formTypesList) ∧
    (∀ a, toLowerS (attrOr a "type" "text") = "text" →
      getWebflowType "input" a true = "FormTextInput" ∧
      getWebflowType "input" a false = "Block") := by
  refine ⟨by decide, by decide, ?_, ?_⟩
  · intro tag a h
    exact ⟨getWebflowType_context_block tag a h, getWebflowType_context_form tag a h⟩
  · intro a h
    constructor
    · simp only [getWebflowType, h]
      rfl
    · simp only [getWebflowType, h]
      rfl

/-- C4 witness. -/
theorem c4_witness :
    getWebflowType "input" [] false = "Block" ∧
    getWebflowType "input" [] true ∈ formTypesList :=
  c4_form_context_classification.2.2.1 "input" [] (by decide)


/-! # Claim C3 — one style record per requested class -/

/-- Updating an existing key leaves the key list unchanged. -/
theorem mapSet_update_keys {β : Type} (m : List (Str × β)) (k : Str) (v : β) :
    (m.map (fun p => if p.1 == k then (k, v) else p)).map (·.1) = m.map (·.1) := by
  induction m with
  | nil => rfl
  | cons p t ih =>
      by_cases hp : (p.1 == k) = true
      · simp only [List.map_cons, if_pos hp, ih]
        rw [eq_of_beq hp]
      · simp only [List.map_cons, if_neg hp, ih]

/-- `Map.set` either keeps the key list or appends the new key. -/
theorem mapSet_keys {β : Type} (m : List (Str × β)) (k : Str) (v : β) :
    (mapSet m k v).map (·.1) = m.map (·.1) ∨
    ((mapSet m k v).map (·.1) = m.map (·.1) ++ [k] ∧ k ∉ m.map (·.1)) := by
  by_cases hc : (m.find? (fun p => p.1 == k)).isSome
  · left
    simp only [mapSet, if_pos hc]
    exact mapSet_update_keys m k v
  · right
    have hnone : m.find? (fun p => p.1 == k) = none := Option.not_isSome_iff_eq_none.mp hc
    simp only [mapSet, if_neg hc]
    refine ⟨by simp, ?_⟩
    intro hmem
    obtain ⟨q, hq, hqk⟩ := List.mem_map.mp hmem
    have h2 := List.find?_eq_none.mp hnone q hq
    simp only [hqk] at h2
    simp at h2

/-- `Map.set` preserves key distinctness. -/
theorem mapSet_keys_nodup {β : Type} (m : List (Str × β)) (k : Str) (v : β)
    (h : (m.map (·.1)).Nodup) : ((mapSet m k v).map (·.1)).Nodup := by
  rcases mapSet_keys m k v with e | ⟨e, hk⟩
  · rwa [e]
  · rw [e]
    refine List.Nodup.append h (List.nodup_singleton k) ?_
    intro x hx hxk
    rw [List.mem_singleton] at hxk
    subst hxk
    exact hk hx

/-- The lookup succeeds exactly when the underlying entry search does. -/
theorem mapGet_isSome_iff {β : Type} (m : List (Str × β)) (k : Str) :
    (mapGet m k).isSome = (m.find? (fun p => p.1 == k)).isSome := by
  unfold mapGet
  cases m.find? (fun p => p.1 == k) <;> rfl

/-- After `Map.set` the key is present. -/
theorem mapGet_mapSet_self {β : Type} (m : List (Str × β)) (k : Str) (v : β) :
    (mapGet (mapSet m k v) k).isSome := by
  rw [mapGet_isSome_iff, List.find?_isSome]
  by_cases hc : (m.find? (fun p => p.1 == k)).isSome
  · obtain ⟨q, hq, hqk⟩ := List.find?_isSome.mp hc
    exact ⟨(k, v), by simp only [mapSet, if_pos hc]
                      exact List.mem_map.mpr ⟨q, hq, by simp [hqk]⟩, by simp⟩
  · exact ⟨(k, v), by simp only [mapSet, if_neg hc]; simp, by simp⟩

/-- `Map.set` keeps every present key present. -/
theorem mapGet_mapSet_mono {β : Type} (m : List (Str × β)) (k : Str) (v : β) (c : Str)
    (h : (mapGet m c).isSome) : (mapGet (mapSet m k v) c).isSome := by
  rw [mapGet_isSome_iff] at h
  rw [mapGet_isSome_iff, List.find?_isSome]
  obtain ⟨q, hq, hqc⟩ := List.find?_isSome.mp h
  by_cases hc : (m.find? (fun p => p.1 == k)).isSome
  · by_cases hqk : (q.1 == k) = true
    · refine ⟨(k, v), ?_, ?_⟩
      · simp only [mapSet, if_pos hc]
        exact List.mem_map.mpr ⟨q, hq, by simp [hqk]⟩
      · have e : q.1 = k := eq_of_beq hqk
        simpa [e.symm] using hqc
    · refine ⟨q, ?_, hqc⟩
      simp only [mapSet, if_pos hc]
      exact List.mem_map.mpr ⟨q, hq, by simp [hqk]⟩
  · refine ⟨q, ?_, hqc⟩
    simp only [mapSet, if_neg hc]
    exact List.mem_append_left _ hq

/-- The per-class loop in terms of record names and shapes: the
records are those of the given prefix followed by one per requested
class, and a class with no matching rule yields an empty declaration
string. -/
theorem parseCSSLoop_styles (V : List (Str × Str)) (R : List CSSRule) :
    ∀ (cs : List Str) (cnt : Nat) (m : List (Str × Nat)) (ss : List WebflowStyle),
      ((parseCSSLoop V R cs cnt m ss).styles.map (·.name) = ss.map (·.name) ++ cs) ∧
      (∀ st ∈ (parseCSSLoop V R cs cnt m ss).styles,
        st ∈ ss ∨ (st.name ∈ cs ∧ (findRuleForClass R st.name = none → st.styleLess = []))) := by
  intro cs
  induction cs with
  | nil =>
      intro cnt m ss
      constructor
      · simp [parseCSSLoop]
      · intro st hst
        exact Or.inl (by simpa [parseCSSLoop] using hst)
  | cons c cs ih =>
      intro cnt m ss
      cases hfind : findRuleForClass R c with
      | none =>
          have h := ih (cnt + 1) (mapSet m c cnt) (ss ++ [mkClassStyle cnt c [] []])
          constructor
          · simp only [parseCSSLoop, hfind]
            rw [h.1]
            simp [mkClassStyle]
          · intro st hst
            simp only [parseCSSLoop, hfind] at hst
            rcases h.2 st hst with hmem | ⟨hname, hsl⟩
            · rcases List.mem_append.mp hmem with hss | hone
              · exact Or.inl hss
              · right
                have hst2 : st = mkClassStyle cnt c [] [] := by simpa using hone
                subst hst2
                exact ⟨List.mem_cons_self _ _, fun _ => rfl⟩
            · exact Or.inr ⟨List.mem_cons_of_mem _ hname, hsl⟩
      | some rule =>
          have h := ih (cnt + 1) (mapSet m c cnt)
            (ss ++ [mkClassStyle cnt c (convertToStyleLess
              (rule.properties.map (fun p => resolveCSSVariables p V))) []])
          constructor
          · simp only [parseCSSLoop, hfind]
            rw [h.1]
            simp [mkClassStyle]
          · intro st hst
            simp only [parseCSSLoop, hfind] at hst
            rcases h.2 st hst with hmem | ⟨hname, hsl⟩
            · rcases List.mem_append.mp hmem with hss | hone
              · exact Or.inl hss
              · right
                have hst2 : st = mkClassStyle cnt c (convertToStyleLess
                    (rule.properties.map (fun p => resolveCSSVariables p V))) [] := by
                  simpa using hone
                subst hst2
                refine ⟨List.mem_cons_self _ _, fun hnone => ?_⟩
                rw [show (mkClassStyle cnt c (convertToStyleLess
                    (rule.properties.map (fun p => resolveCSSVariables p V))) []).name = c
                  from rfl, hfind] at hnone
                cases hnone
            · exact Or.inr ⟨List.mem_cons_of_mem _ hname, hsl⟩

/-- The per-class loop in terms of the class→id map: distinct keys,
keys drawn from the requested names, every requested name present. -/
theorem parseCSSLoop_mapIds (V : List (Str × Str)) (R : List CSSRule) :
    ∀ (cs : List Str) (cnt : Nat) (m : List (Str × Nat)) (ss : List WebflowStyle),
      (m.map (·.1)).Nodup →
      (((parseCSSLoop V R cs cnt m ss).classToIdMap.map (·.1)).Nodup) ∧
      (∀ k ∈ (parseCSSLoop V R cs cnt m ss).classToIdMap.map (·.1),
        k ∈ m.map (·.1) ∨ k ∈ cs) ∧
      (∀ c ∈ cs, (mapGet (parseCSSLoop V R cs cnt m ss).classToIdMap c).isSome) ∧
      (∀ c, (mapGet m c).isSome →
        (mapGet (parseCSSLoop V R cs cnt m ss).classToIdMap c).isSome) := by
  intro cs
  induction cs with
  | nil =>
      intro cnt m ss hm
      refine ⟨by simpa [parseCSSLoop] using hm, ?_, ?_, ?_⟩
      · intro k hk
        exact Or.inl (by simpa [parseCSSLoop] using hk)
      · intro c hc
        cases hc
      · intro c hc
        simpa [parseCSSLoop] using hc
  | cons c cs ih =>
      intro cnt m ss hm
      have hm' : ((mapSet m c cnt).map (·.1)).Nodup := mapSet_keys_nodup m c cnt hm
      have hips : ∀ ss2, (((parseCSSLoop V R cs (cnt + 1) (mapSet m c cnt)
          ss2).classToIdMap.map (·.1)).Nodup) ∧
          (∀ k ∈ (parseCSSLoop V R cs (cnt + 1) (mapSet m c cnt) ss2).classToIdMap.map (·.1),
            k ∈ (mapSet m c cnt).map (·.1) ∨ k ∈ cs) ∧
          (∀ c2 ∈ cs, (mapGet (parseCSSLoop V R cs (cnt + 1) (mapSet m c cnt)
            ss2).classToIdMap c2).isSome) ∧
          (∀ c2, (mapGet (mapSet m c cnt) c2).isSome →
            (mapGet (parseCSSLoop V R cs (cnt + 1) (mapSet m c cnt)
              ss2).classToIdMap c2).isSome) :=
        fun ss2 => ih (cnt + 1) (mapSet m c cnt) ss2 hm'
      have hkey : ∀ k, k ∈ (mapSet m c cnt).map (·.1) → k ∈ m.map (·.1) ∨ k = c := by
        intro k hk
        rcases mapSet_keys m c cnt with e | ⟨e, _⟩
        · rw [e] at hk
          exact Or.inl hk
        · rw [e] at hk
          rcases List.mem_append.mp hk with h3 | h3
          · exact Or.inl h3
          · exact Or.inr (by simpa using h3)
      cases hfind : findRuleForClass R c with
      | none =>
          have h := hips (ss ++ [mkClassStyle cnt c [] []])
          refine ⟨by simpa only [parseCSSLoop, hfind] using h.1, ?_, ?_, ?_⟩
          · intro k hk
            rcases h.2.1 k (by simpa only [parseCSSLoop, hfind] using hk) with hk2 | hk2
            · rcases hkey k hk2 with h3 | h3
              · exact Or.inl h3
              · exact Or.inr (List.mem_cons.mpr (Or.inl h3))
            · exact Or.inr (List.mem_cons_of_mem _ hk2)
          · intro c2 hc2
            rcases List.mem_cons.mp hc2 with e | hc3
            · subst e
              have := h.2.2.2 c2 (mapGet_mapSet_self m c2 cnt)
              simpa only [parseCSSLoop, hfind] using this
            · simpa only [parseCSSLoop, hfind] using h.2.2.1 c2 hc3
          · intro c2 hc2
            have := h.2.2.2 c2 (mapGet_mapSet_mono m c cnt c2 hc2)
            simpa only [parseCSSLoop, hfind] using this
      | some rule =>
          have h := hips (ss ++ [mkClassStyle cnt c (convertToStyleLess
            (rule.properties.map (fun p => resolveCSSVariables p V))) []])
          refine ⟨by simpa only [parseCSSLoop, hfind] using h.1, ?_, ?_, ?_⟩
          · intro k hk
            rcases h.2.1 k (by simpa only [parseCSSLoop, hfind] using hk) with hk2 | hk2
            · rcases hkey k hk2 with h3 | h3
              · exact Or.inl h3
              · exact Or.inr (List.mem_cons.mpr (Or.inl h3))
            · exact Or.inr (List.mem_cons_of_mem _ hk2)
          · intro c2 hc2
            rcases List.mem_cons.mp hc2 with e | hc3
            · subst e
              have := h.2.2.2 c2 (mapGet_mapSet_self m c2 cnt)
              simpa only [parseCSSLoop, hfind] using this
            · simpa only [parseCSSLoop, hfind] using h.2.2.1 c2 hc3
          · intro c2 hc2
            have := h.2.2.2 c2 (mapGet_mapSet_mono m c cnt c2 hc2)
            simpa only [parseCSSLoop, hfind] using this

/-- A character at which the reference regex does not match passes
through the observable-fuel scan unchanged; in particular a scan that
never finishes on the tail never finishes on the whole. -/
theorem resolveVarsOpt_none_cons (vars : List (Str × Str)) (c : Char) (s : Str)
    (hm : varRefMatchAt (c :: s) = none)
    (hs : ∀ fuel, resolveVarsOpt vars fuel s = none) :
    ∀ fuel, resolveVarsOpt vars fuel (c :: s) = none := by
  intro fuel
  cases fuel with
  | zero => rfl
  | succ f => simp only [resolveVarsOpt, hm, hs f, Option.map_none']

/-- On the cyclic table `a ↦ var(--a)` the scan of the stored value
`var(--a)` needs more fuel than any given: the matched reference
resolves to the value itself, which again contains `var(`. -/
theorem resolveVarsOpt_cycle :
    ∀ fuel, resolveVarsOpt [(str "a", str "var(--a)")] fuel (str "var(--a)") = none := by
  intro fuel
  induction fuel with
  | zero => rfl
  | succ f ih =>
      have h : resolveVarsOpt [(str "a", str "var(--a)")] (f + 1) (str "var(--a)") =
          match resolveVarsOpt [(str "a", str "var(--a)")] f (str "var(--a)"),
                resolveVarsOpt [(str "a", str "var(--a)")] f [] with
          | some repl, some rest2 => some (repl ++ rest2)
          | _, _ => none := rfl
      rw [h, ih]

/-- The whole property `color: var(--a)` never resolves either: the
prefix passes through and the reference at the end cycles. -/
theorem resolveVarsOpt_cycle_prop :
    ∀ fuel,
      resolveVarsOpt [(str "a", str "var(--a)")] fuel (str "color: var(--a)") = none :=
  resolveVarsOpt_none_cons _ 'c' (str "olor: var(--a)") (by decide)
    (resolveVarsOpt_none_cons _ 'o' (str "lor: var(--a)") (by decide)
      (resolveVarsOpt_none_cons _ 'l' (str "or: var(--a)") (by decide)
        (resolveVarsOpt_none_cons _ 'o' (str "r: var(--a)") (by decide)
          (resolveVarsOpt_none_cons _ 'r' (str ": var(--a)") (by decide)
            (resolveVarsOpt_none_cons _ ':' (str " var(--a)") (by decide)
              (resolveVarsOpt_none_cons _ ' ' (str "var(--a)") (by decide)
                resolveVarsOpt_cycle))))))

/-- C3, code bug: the claim asserts the CSS compiler is total — one
record per requested class for every CSS text, never raising.  It is
not: when a stored variable value contains `var(`, the source's
`resolveCSSVariables` resolves it by calling itself on that value, so
on a cyclic `:root` table the recursion never returns and the program
aborts with a stack overflow instead of producing records.  In the
step-indexed embedding where fuel exhaustion is observable: the
stylesheet `cyclicCss` extracts exactly the cyclic table
`a ↦ var(--a)`, its `.x` rule carries the single property
`color: var(--a)` (so compiling class `x` reaches the resolution),
and resolving that property returns `none` at every fuel — the
recursion of the source needs infinitely much. -/
theorem c3_divergence :
    (extractCSSVariables cyclicCss = [(str "a", str "var(--a)")]) ∧
    ((findRuleForClass (parseCSSRules cyclicCss) (str "x")).map (fun r => r.properties) =
      some [str "color: var(--a)"]) ∧
    (∀ fuel,
      resolveVarsOpt [(str "a", str "var(--a)")] fuel (str "color: var(--a)") = none) :=
  ⟨by decide, by decide, resolveVarsOpt_cycle_prop⟩

/-! # Claim C8 — whitespace-only text is never emitted -/

/-- The head of a nonempty `dropWhile` result fails the predicate. -/
theorem dropWhile_head_not {p : Char → Bool} :
    ∀ (l : Str) (c : Char) (t : Str), l.dropWhile p = c :: t → p c = false := by
  intro l
  induction l with
  | nil => intro c t h; cases h
  | cons d r ih =>
      intro c t h
      rw [List.dropWhile_cons] at h
      by_cases hd : p d = true
      · rw [if_pos hd] at h
        exact ih c t h
      · rw [if_neg hd] at h
        cases h
        simpa using hd

/-- Dropping trailing whitespace yields a prefix. -/
theorem dropTrailingWs_prefix (l : Str) : dropTrailingWs l <+: l := by
  have h : (l.reverse.dropWhile isWsChar) <:+ l.reverse := List.dropWhile_suffix _
  have h2 := List.reverse_prefix.mpr h
  rwa [List.reverse_reverse] at h2

/-- A nonempty trimmed string contains a non-whitespace character. -/
theorem trimJS_all_ws_false (s : Str) (h : trimJS s ≠ []) :
    (trimJS s).all isWsChar = false := by
  obtain ⟨c, t, e⟩ : ∃ c t, trimJS s = c :: t := by
    cases e : trimJS s
    · exact absurd e h
    · exact ⟨_, _, rfl⟩
  obtain ⟨r, hr⟩ := dropTrailingWs_prefix (s.dropWhile isWsChar)
  rw [show dropTrailingWs (s.dropWhile isWsChar) = trimJS s from rfl, e] at hr
  have hc : isWsChar c = false := by
    refine dropWhile_head_not s c (t ++ r) ?_
    rw [← hr]
    rfl
  rw [e]
  simp [hc]

mutual
/-- Every text node a DOM node contributes is trimmed nonempty text. -/
theorem processNode_text_content (m : List (String × Nat)) (f : Bool) (cnt : Nat)
    (nd : DomNode) :
    ∀ w ∈ (processNode m f cnt nd).2.1, w.text = true →
      ∃ s : Str, w.v = String.mk (trimJS s) ∧ trimJS s ≠ [] := by
  cases nd with
  | element t a c =>
      intro w hw hwt
      simp only [processNode] at hw
      rcases List.mem_cons.mp hw with e | hw2
      · rw [e] at hwt
        cases hwt
      · exact processForest_text_content m (toLowerS t = "form" || f) (cnt + 1) c w hw2 hwt
  | text d =>
      intro w hw hwt
      simp only [processNode] at hw
      by_cases hlen : (String.mk (trimJS d.toList)).length > 0
      · rw [if_pos hlen] at hw
        have e : w = textWNode cnt (String.mk (trimJS d.toList)) := by simpa using hw
        subst e
        refine ⟨d.toList, rfl, ?_⟩
        intro hnil
        rw [show (String.mk (trimJS d.toList)).length = (trimJS d.toList).length from rfl,
          hnil] at hlen
        simp at hlen
      · rw [if_neg hlen] at hw
        cases hw

/-- Every text node a forest contributes is trimmed nonempty text. -/
theorem processForest_text_content (m : List (String × Nat)) (f : Bool) (cnt : Nat)
    (fr : DomForest) :
    ∀ w ∈ (processForest m f cnt fr).2.1, w.text = true →
      ∃ s : Str, w.v = String.mk (trimJS s) ∧ trimJS s ≠ [] := by
  cases fr with
  | nil =>
      intro w hw
      simp [processForest] at hw
  | cons h tl =>
      intro w hw hwt
      simp only [processForest] at hw
      rcases List.mem_append.mp hw with h1 | h2
      · exact processNode_text_content m f cnt h w h1 hwt
      · exact processForest_text_content m f (processNode m f cnt h).1 tl w h2 hwt
end

/-- C8: no text node whose content is only whitespace (or empty) is
ever emitted by the compiler, for any DOM input; in particular
compiling `<div>   </div>` yields exactly one node — the div — with an
empty children list. -/
theorem c8_no_whitespace_text (forest : DomForest) (m : List (String × Nat)) :
    (∀ w ∈ (compileHTMLToNodes forest m).nodes, w.text = true →
      w.v.toList.all isWsChar = false) ∧
    (compileHTMLToNodes demoWsForest [] =
      { nodes := [{ _id := 0, text := false, v := "", classes := [], type := "Block",
                    tag := "div", data := .std [("id", .s "")] (some false) (some "div") false,
                    children := [] }],
        rootNodeIds := [0] }) := by
  constructor
  · intro w hw hwt
    have hmem : w ∈ (processForest m false 0 (contentOfForest forest)).2.1 := hw
    obtain ⟨s, hv, hne⟩ := processForest_text_content m false 0 (contentOfForest forest) w hmem hwt
    rw [hv]
    exact trimJS_all_ws_false s hne
  · decide

/-- C8 witness. -/
theorem c8_witness :
    ({ _id := 2, text := true, v := "Hello", classes := [], type := "", tag := ""
       data := .noData, children := [] } : WNode).v.toList.all isWsChar = false :=
  (c8_no_whitespace_text demoRoundTripForest [("c", 77)]).1 _ (by decide) (by decide)

/-! # Claim C1 — ids, parent-before-child, uniqueness -/

/-- Equation for a nonempty text child. -/
theorem processNode_text_pos (m : List (String × Nat)) (f : Bool) (cnt : Nat) (d : String)
    (h : 0 < (trimJS d.data).length) :
    processNode m f cnt (.text d) =
      (cnt + 1, [textWNode cnt (String.mk (trimJS d.data))], some cnt) := by
  simp only [processNode]
  rw [if_pos]
  · rfl
  · exact h

/-- Equation for a whitespace-only text child. -/
theorem processNode_text_neg (m : List (String × Nat)) (f : Bool) (cnt : Nat) (d : String)
    (h : ¬ 0 < (trimJS d.data).length) :
    processNode m f cnt (.text d) = (cnt, [], none) := by
  simp only [processNode]
  rw [if_neg]
  exact h

mutual
/-- Shape of one processed DOM node: the counter advances by the
number of emitted nodes, the emitted ids are consecutive from the
entry counter (ids equal positions), and the returned child-list
entry, when present, is the entry counter. -/
theorem processNode_shape (m : List (String × Nat)) (f : Bool) (cnt : Nat) (nd : DomNode) :
    ((processNode m f cnt nd).1 = cnt + (processNode m f cnt nd).2.1.length) ∧
    ((processNode m f cnt nd).2.1.map (·._id) =
      List.range' cnt (processNode m f cnt nd).2.1.length) ∧
    ((processNode m f cnt nd).2.2 = none → (processNode m f cnt nd).2.1 = []) ∧
    (∀ i, (processNode m f cnt nd).2.2 = some i →
      i = cnt ∧ 0 < (processNode m f cnt nd).2.1.length) := by
  cases nd with
  | element t a c =>
      have hf := processForest_shape m (toLowerS t = "form" || f) (cnt + 1) c
      refine ⟨?_, ?_, ?_, ?_⟩
      · simp only [processNode, List.length_cons]
        omega
      · simp only [processNode, List.map_cons, List.length_cons]
        rw [hf.2.1, List.range'_succ]
      · intro h
        simp only [processNode] at h
        cases h
      · intro i h
        simp only [processNode] at h
        cases h
        exact ⟨rfl, by simp only [processNode, List.length_cons]; omega⟩
  | text d =>
      by_cases hlen : 0 < (trimJS d.data).length
      · rw [processNode_text_pos m f cnt d hlen]
        refine ⟨by simp, by simp [textWNode, List.range'], ?_, ?_⟩
        · intro h
          cases h
        · intro i h
          cases h
          exact ⟨rfl, by simp⟩
      · rw [processNode_text_neg m f cnt d hlen]
        refine ⟨by simp, by simp [List.range'], fun _ => rfl, ?_⟩
        · intro i h
          cases h

/-- Shape of a processed forest: counter/ids as above, and the
returned root ids are strictly increasing and lie in the processed
id interval. -/
theorem processForest_shape (m : List (String × Nat)) (f : Bool) (cnt : Nat)
    (fr : DomForest) :
    ((processForest m f cnt fr).1 = cnt + (processForest m f cnt fr).2.1.length) ∧
    ((processForest m f cnt fr).2.1.map (·._id) =
      List.range' cnt (processForest m f cnt fr).2.1.length) ∧
    ((processForest m f cnt fr).2.2.Pairwise (· < ·)) ∧
    (∀ r ∈ (processForest m f cnt fr).2.2,
      cnt ≤ r ∧ r < (processForest m f cnt fr).1) := by
  cases fr with
  | nil =>
      refine ⟨by simp [processForest], by simp [processForest, List.range'], ?_, ?_⟩
      · simp [processForest]
      · intro r hr
        simp [processForest] at hr
  | cons h tl =>
      have h1 := processNode_shape m f cnt h
      have h2 := processForest_shape m f (processNode m f cnt h).1 tl
      have hlen : (processForest m f cnt (.cons h tl)).2.1.length =
          (processNode m f cnt h).2.1.length +
          (processForest m f (processNode m f cnt h).1 tl).2.1.length := by
        simp [processForest]
      refine ⟨?_, ?_, ?_, ?_⟩
      · simp only [processForest, List.length_append]
        omega
      · simp only [processForest, List.map_append, List.length_append]
        rw [h1.2.1, h2.2.1, h1.1]
        have hra := List.range'_append cnt (processNode m f cnt h).2.1.length
          (processForest m f (cnt + (processNode m f cnt h).2.1.length) tl).2.1.length 1
        simp only [one_mul, Nat.mul_one] at hra
        rw [Nat.add_comm ((processNode m f cnt h).2.1.length)
          ((processForest m f (cnt + (processNode m f cnt h).2.1.length) tl).2.1.length)]
        exact hra
      · simp only [processForest]
        cases hopt : (processNode m f cnt h).2.2 with
        | none => simpa using h2.2.2.1
        | some i =>
            have hi := h1.2.2.2 i hopt
            simp only [Option.toList_some, List.singleton_append]
            rw [List.pairwise_cons]
            refine ⟨?_, h2.2.2.1⟩
            intro b hb
            have hbb := h2.2.2.2 b hb
            have := h1.1
            omega
      · intro r hr
        simp only [processForest] at hr
        rcases List.mem_append.mp hr with hro | hrt
        · cases hopt : (processNode m f cnt h).2.2 with
          | none =>
              rw [hopt] at hro
              cases hro
          | some i =>
              rw [hopt] at hro
              have : r = i := by simpa using hro
              subst this
              have hi := h1.2.2.2 r hopt
              have e1 := h1.1
              have e2 := h2.1
              have hl := hlen
              constructor
              · omega
              · simp only [processForest, List.length_append]
                omega
        · have := h2.2.2.2 r hrt
          have e1 := h1.1
          constructor
          · omega
          · simp only [processForest, List.length_append]
            have e2 := h2.1
            omega
end

mutual
/-- Children-list facts for one processed node: each emitted node's
children are strictly increasing, strictly above the node's own id,
and below the final counter; the multiset of all children ids over
the emitted nodes has no duplicates and lies strictly between the
entry and exit counters. -/
theorem processNode_children_facts (m : List (String × Nat)) (f : Bool) (cnt : Nat)
    (nd : DomNode) :
    (∀ p ∈ (processNode m f cnt nd).2.1, p.children.Pairwise (· < ·) ∧
      ∀ ch ∈ p.children, p._id < ch ∧ ch < (processNode m f cnt nd).1) ∧
    (((processNode m f cnt nd).2.1.flatMap (·.children)).Nodup) ∧
    (∀ x ∈ (processNode m f cnt nd).2.1.flatMap (·.children),
      cnt < x ∧ x < (processNode m f cnt nd).1) := by
  cases nd with
  | element t a c =>
      have hfs := processForest_shape m (toLowerS t = "form" || f) (cnt + 1) c
      have hfc := processForest_children_facts m (toLowerS t = "form" || f) (cnt + 1) c
      refine ⟨?_, ?_, ?_⟩
      · intro p hp
        simp only [processNode] at hp ⊢
        rcases List.mem_cons.mp hp with e | hp2
        · subst e
          refine ⟨hfs.2.2.1, ?_⟩
          intro ch hch
          have hb := hfs.2.2.2 ch hch
          constructor
          · show cnt < ch
            omega
          · show ch < (processForest m (toLowerS t = "form" || f) (cnt + 1) c).1
            omega
        · have := (hfc.1 p hp2)
          exact this
      · simp only [processNode, List.flatMap_cons]
        refine List.Nodup.append ?_ hfc.2.1 ?_
        · exact hfs.2.2.1.imp Nat.ne_of_lt
        · intro x hx hx2
          exact (hfc.2.2 x hx2).2.2 hx
      · intro x hx
        simp only [processNode, List.flatMap_cons] at hx ⊢
        rcases List.mem_append.mp hx with hx1 | hx2
        · have := hfs.2.2.2 x hx1
          exact ⟨by omega, by omega⟩
        · have := hfc.2.2 x hx2
          exact ⟨by omega, by omega⟩
  | text d =>
      by_cases hlen : 0 < (trimJS d.data).length
      · rw [processNode_text_pos m f cnt d hlen]
        refine ⟨?_, by simp [textWNode], ?_⟩
        · intro p hp
          have e : p = textWNode cnt (String.mk (trimJS d.data)) := by simpa using hp
          subst e
          refine ⟨by simp [textWNode], ?_⟩
          intro ch hch
          simp [textWNode] at hch
        · intro x hx
          simp [textWNode] at hx
      · rw [processNode_text_neg m f cnt d hlen]
        refine ⟨?_, by simp, ?_⟩
        · intro p hp
          simp at hp
        · intro x hx
          simp at hx

/-- Children-list facts for a processed forest; additionally no
children id is one of the returned root ids. -/
theorem processForest_children_facts (m : List (String × Nat)) (f : Bool) (cnt : Nat)
    (fr : DomForest) :
    (∀ p ∈ (processForest m f cnt fr).2.1, p.children.Pairwise (· < ·) ∧
      ∀ ch ∈ p.children, p._id < ch ∧ ch < (processForest m f cnt fr).1) ∧
    (((processForest m f cnt fr).2.1.flatMap (·.children)).Nodup) ∧
    (∀ x ∈ (processForest m f cnt fr).2.1.flatMap (·.children),
      cnt ≤ x ∧ x < (processForest m f cnt fr).1 ∧
      x ∉ (processForest m f cnt fr).2.2) := by
  cases fr with
  | nil =>
      refine ⟨?_, ?_, ?_⟩
      · intro p hp
        simp [processForest] at hp
      · simp [processForest]
      · intro x hx
        simp [processForest] at hx
  | cons h tl =>
      have hn := processNode_children_facts m f cnt h
      have hns := processNode_shape m f cnt h
      have hts := processForest_shape m f (processNode m f cnt h).1 tl
      have ht := processForest_children_facts m f (processNode m f cnt h).1 tl
      have hcle : cnt ≤ (processNode m f cnt h).1 := by
        have := hns.1
        omega
      have hmono : (processNode m f cnt h).1 ≤ (processForest m f cnt (.cons h tl)).1 := by
        have := hts.1
        simp only [processForest]
        omega
      refine ⟨?_, ?_, ?_⟩
      · intro p hp
        simp only [processForest] at hp
        rcases List.mem_append.mp hp with hp1 | hp2
        · have := hn.1 p hp1
          refine ⟨this.1, ?_⟩
          intro ch hch
          have h3 := this.2 ch hch
          simp only [processForest]
          have := hts.1
          exact ⟨h3.1, by omega⟩
        · have := ht.1 p hp2
          refine ⟨this.1, ?_⟩
          intro ch hch
          have h3 := this.2 ch hch
          simp only [processForest]
          exact ⟨h3.1, h3.2⟩
      · simp only [processForest, List.flatMap_append]
        refine List.Nodup.append hn.2.1 ht.2.1 ?_
        intro x hx1 hx2
        have b1 := (hn.2.2 x hx1).2
        have b2 := (ht.2.2 x hx2).1
        omega
      · intro x hx
        simp only [processForest, List.flatMap_append] at hx
        rcases List.mem_append.mp hx with hx1 | hx2
        · have b1 := hn.2.2 x hx1
          refine ⟨by omega, ?_, ?_⟩
          · simp only [processForest]
            omega
          · intro hmem
            simp only [processForest] at hmem
            rcases List.mem_append.mp hmem with hm1 | hm2
            · cases hopt : (processNode m f cnt h).2.2 with
              | none =>
                  rw [hopt] at hm1
                  cases hm1
              | some i =>
                  rw [hopt] at hm1
                  have e : x = i := by simpa using hm1
                  have hi := hns.2.2.2 i hopt
                  omega
            · have := hts.2.2.2 x hm2
              omega
        · have b2 := ht.2.2 x hx2
          refine ⟨by omega, ?_, ?_⟩
          · simp only [processForest]
            exact b2.2.1
          · intro hmem
            simp only [processForest] at hmem
            rcases List.mem_append.mp hmem with hm1 | hm2
            · cases hopt : (processNode m f cnt h).2.2 with
              | none =>
                  rw [hopt] at hm1
                  cases hm1
              | some i =>
                  rw [hopt] at hm1
                  have e : x = i := by simpa using hm1
                  have hi := hns.2.2.2 i hopt
                  have := hns.1
                  omega
            · exact b2.2.2 hm2
end

/-- Monotonicity of reachability under the per-parent bound. -/
theorem reaches_lt (ns : List WNode)
    (hB : ∀ p ∈ ns, ∀ ch ∈ p.children, p._id < ch) :
    ∀ a b, Reaches ns a b → a < b := by
  intro a b h
  induction h with
  | child p a b hp ha hb =>
      rw [← ha]
      exact hB p hp b hb
  | trans h1 h2 ih1 ih2 => omega

/-- C1: in the flat list returned by the compiler, ids equal list
positions (so the list is in id order), the multiset of all children
ids over all nodes has no duplicates (each id sits in at most one
parent's child list, at most once), every child id is strictly larger
than its parent's id and in range, and everything reachable from a
node through children lists lies strictly after it. -/
theorem c1_parent_before_child (forest : DomForest) (m : List (String × Nat)) :
    ((compileHTMLToNodes forest m).nodes.map (·._id) =
      List.range (compileHTMLToNodes forest m).nodes.length) ∧
    (((compileHTMLToNodes forest m).nodes.flatMap (·.children)).Nodup) ∧
    (∀ p ∈ (compileHTMLToNodes forest m).nodes, ∀ ch ∈ p.children,
      p._id < ch ∧ ch < (compileHTMLToNodes forest m).nodes.length) ∧
    (∀ a b, Reaches (compileHTMLToNodes forest m).nodes a b → a < b) := by
  have hs := processForest_shape m false 0 (contentOfForest forest)
  have hc := processForest_children_facts m false 0 (contentOfForest forest)
  have hnodes : (compileHTMLToNodes forest m).nodes =
      (processForest m false 0 (contentOfForest forest)).2.1 := rfl
  have hfin : (processForest m false 0 (contentOfForest forest)).1 =
      (compileHTMLToNodes forest m).nodes.length := by
    rw [hnodes]
    have := hs.1
    omega
  refine ⟨?_, ?_, ?_, ?_⟩
  · rw [hnodes, List.range_eq_range', hs.2.1]
  · rw [hnodes]
    exact hc.2.1
  · intro p hp ch hch
    have := (hc.1 p (by rwa [hnodes] at hp)).2 ch hch
    rw [hfin] at this
    exact this
  · refine reaches_lt _ ?_
    intro p hp ch hch
    exact ((hc.1 p (by rwa [hnodes] at hp)).2 ch hch).1

/-- C1 witness. -/
theorem c1_witness :
    ((compileHTMLToNodes demoRoundTripForest [("c", 77)]).nodes.flatMap (·.children)).Nodup :=
  (c1_parent_before_child demoRoundTripForest [("c", 77)]).2.1

/-! # Claim C2 — chunking machinery -/

/-- Membership in an id interval, as the `Set.has` test. -/
theorem contains_range' (a k x : Nat) :
    (List.range' a k).contains x = decide (a ≤ x ∧ x < a + k) := by
  rw [Bool.eq_iff_iff]
  constructor
  · intro h
    exact decide_eq_true (List.mem_range'_1.mp (List.elem_iff.mp h))
  · intro h
    exact List.elem_iff.mpr (List.mem_range'_1.mpr (of_decide_eq_true h))

/-- In a list whose ids are consecutive from `c`, the id lookup finds
exactly the entry at the corresponding position. -/
theorem nsFind_ids : ∀ (ns : List WNode) (c : Nat),
    ns.map (·._id) = List.range' c ns.length →
    ∀ k, (hk : k < ns.length) → nsFind ns (c + k) = some (ns.get ⟨k, hk⟩) := by
  intro ns
  induction ns with
  | nil =>
      intro c _ k hk
      cases hk
  | cons nd tl ih =>
      intro c hmap k hk
      have hmap' := hmap
      rw [List.map_cons, List.length_cons, List.range'_succ] at hmap'
      have hhd : nd._id = c := (List.cons_eq_cons.mp hmap').1
      have htl : tl.map (·._id) = List.range' (c + 1) tl.length := (List.cons_eq_cons.mp hmap').2
      cases k with
      | zero =>
          have hpos : ((fun n => n._id == c + 0) nd) = true := by
            show (nd._id == c + 0) = true
            rw [hhd]
            simp
          unfold nsFind
          rw [@List.find?_cons_of_pos WNode (fun n => n._id == c + 0) nd tl hpos]
          rfl
      | succ k' =>
          have hne : ¬ ((fun n => n._id == c + (k' + 1)) nd) = true := by
            show ¬ (nd._id == c + (k' + 1)) = true
            rw [hhd]
            simp only [beq_eq_false_iff_ne, ne_eq, beq_iff_eq]
            omega
          unfold nsFind
          rw [@List.find?_cons_of_neg WNode (fun n => n._id == c + (k' + 1)) nd tl hne]
          have hk' : k' < tl.length := by
            simpa using hk
          have := ih (c + 1) htl k' hk'
          unfold nsFind at this
          rw [show c + (k' + 1) = (c + 1) + k' from by omega, this]
          congr 1

/-- Restriction of an alignment to the left part of a block. -/
theorem nsAligned_append_left (ns : List WNode) (s : Nat) (b1 b2 : List WNode)
    (h : NsAligned ns s (b1 ++ b2)) : NsAligned ns s b1 := by
  intro k hk
  have hk2 : k < (b1 ++ b2).length := by
    rw [List.length_append]
    omega
  have := h k hk2
  rw [this]
  congr 1
  simp [List.getElem_append_left hk]

/-- Restriction of an alignment to the right part of a block. -/
theorem nsAligned_append_right (ns : List WNode) (s : Nat) (b1 b2 : List WNode)
    (h : NsAligned ns s (b1 ++ b2)) : NsAligned ns (s + b1.length) b2 := by
  intro k hk
  have hk2 : b1.length + k < (b1 ++ b2).length := by
    rw [List.length_append]
    omega
  have h2 := h (b1.length + k) hk2
  rw [show s + b1.length + k = s + (b1.length + k) from by omega, h2]
  congr 1
  rw [List.get_eq_getElem, List.get_eq_getElem,
    List.getElem_append_right (show b1.length ≤ b1.length + k from by omega)]
  simp only [Nat.add_sub_cancel_left]

/-- The processed interval of a block run is well ordered. -/
theorem Blocks_le (ns : List WNode) :
    ∀ {s e : Nat} {roots : List Nat}, Blocks ns s e roots → s ≤ e := by
  intro s e roots h
  induction h with
  | nil => exact le_refl _
  | cons s L e roots' hL hcollect hcount htail ih => omega

/-- An empty root run covers an empty interval. -/
theorem Blocks_nil_eq (ns : List WNode) {s e : Nat} (h : Blocks ns s e []) : s = e := by
  cases h
  rfl

/-- A nonempty root run covers a nonempty interval. -/
theorem Blocks_pos (ns : List WNode) {s e : Nat} {r : Nat} {roots : List Nat}
    (h : Blocks ns s e (r :: roots)) : s < e := by
  cases h with
  | cons _ L _ _ hL hcollect hcount htail =>
      have := Blocks_le ns htail
      omega

/-- Consecutive block runs concatenate. -/
theorem Blocks_append (ns : List WNode) :
    ∀ {s t : Nat} {xs : List Nat}, Blocks ns s t xs →
    ∀ {e : Nat} {ys : List Nat}, Blocks ns t e ys → Blocks ns s e (xs ++ ys) := by
  intro s t xs h1
  induction h1 with
  | nil => intro e ys h2; exact h2
  | cons s L t roots' hL hcollect hcount htail ih =>
      intro e ys h2
      exact Blocks.cons s L e (roots' ++ ys) hL hcollect hcount (ih h2)

/-- Folding the source's subtree collection over a block run appends
exactly the covered id interval (the children loop of
`collectSubtreeNodes` and the root loop of the chunker both have this
fold shape). -/
theorem Blocks_collect_fold (ns : List WNode) :
    ∀ {s e : Nat} {roots : List Nat}, Blocks ns s e roots →
    ∀ (g : Nat) (acc : List Nat), e - s ≤ g →
    (∀ x ∈ acc, x ∉ List.range' s (e - s)) →
    roots.foldl (fun a r => collectSubtreeNodes ns g r a) acc = acc ++ List.range' s (e - s) := by
  intro s e roots h
  induction h with
  | nil =>
      intro g acc _ _
      simp
  | cons s L e roots' hL hcollect hcount htail ih =>
      intro g acc hg hdisj
      have hse : s + L ≤ e := by
        have := Blocks_le ns htail
        omega
      rw [List.foldl_cons]
      rw [hcollect g acc (by omega) ?hdj]
      case hdj =>
        intro x hx hxr
        refine hdisj x hx ?_
        rw [List.mem_range'_1] at hxr ⊢
        omega
      rw [ih g (acc ++ List.range' s L) (by omega) ?hdj2]
      case hdj2 =>
        intro x hx hxr
        rw [List.mem_range'_1] at hxr
        rcases List.mem_append.mp hx with hx1 | hx2
        · refine hdisj x hx1 ?_
          rw [List.mem_range'_1]
          omega
        · rw [List.mem_range'_1] at hx2
          omega
      rw [List.append_assoc]
      congr 1
      have hra := List.range'_append s L (e - (s + L)) 1
      simp only [one_mul, Nat.mul_one] at hra
      rw [show e - s = e - (s + L) + L from by omega, ← hra]

/-- Folding the source's subtree count over a block run adds exactly
the covered interval's size. -/
theorem Blocks_count_fold (ns : List WNode) :
    ∀ {s e : Nat} {roots : List Nat}, Blocks ns s e roots →
    ∀ (g : Nat) (acc0 : Nat), e - s ≤ g →
    roots.foldl (fun a r => a + countNodesInSubtree ns g r) acc0 = acc0 + (e - s) := by
  intro s e roots h
  induction h with
  | nil =>
      intro g acc0 _
      simp
  | cons s L e roots' hL hcollect hcount htail ih =>
      intro g acc0 hg
      have hse : s + L ≤ e := by
        have := Blocks_le ns htail
        omega
      rw [List.foldl_cons, hcount g (by omega), ih g (acc0 + L) (by omega)]
      omega

/-- One unfolding step of the subtree walks: if the id lookup at
`cnt` yields a node whose children ids form a block run covering
`[cnt+1, cnt+1+flen)`, then collecting from `cnt` appends exactly
`[cnt, cnt+1+flen)` and counting returns the subtree size, for any
sufficient fuel. -/
theorem collect_step (ns : List WNode) (cnt : Nat) (node : WNode) (flen : Nat)
    (hfind : nsFind ns cnt = some node)
    (hblocks : Blocks ns (cnt + 1) (cnt + 1 + flen) node.children) :
    (∀ fuel acc, flen + 1 ≤ fuel →
      (∀ x ∈ acc, x ∉ List.range' cnt (flen + 1)) →
      collectSubtreeNodes ns fuel cnt acc = acc ++ List.range' cnt (flen + 1)) ∧
    (∀ fuel, flen + 1 ≤ fuel → countNodesInSubtree ns fuel cnt = flen + 1) := by
  constructor
  · intro fuel acc hfuel hdisj
    obtain ⟨fu, rfl⟩ : ∃ fu, fuel = fu + 1 := ⟨fuel - 1, by omega⟩
    have hcnt : acc.contains cnt = false := by
      rw [Bool.eq_false_iff]
      intro hc
      exact hdisj cnt (List.elem_iff.mp hc) (List.mem_range'_1.mpr (by omega))
    simp only [collectSubtreeNodes, hcnt, Bool.false_eq_true, if_false, hfind]
    have hfold := Blocks_collect_fold ns hblocks fu (acc ++ [cnt]) ?hg ?hdj
    case hg => omega
    case hdj =>
      intro x hx hxr
      rw [show cnt + 1 + flen - (cnt + 1) = flen from by omega] at hxr
      rw [List.mem_range'_1] at hxr
      rcases List.mem_append.mp hx with hx1 | hx2
      · exact hdisj x hx1 (List.mem_range'_1.mpr (by omega))
      · have : x = cnt := by simpa using hx2
        omega
    rw [show cnt + 1 + flen - (cnt + 1) = flen from by omega] at hfold
    rw [hfold, List.append_assoc, List.range'_succ]
    rfl
  · intro fuel hfuel
    obtain ⟨fu, rfl⟩ : ∃ fu, fuel = fu + 1 := ⟨fuel - 1, by omega⟩
    simp only [countNodesInSubtree, hfind]
    have hfold := Blocks_count_fold ns hblocks fu 0 (by omega)
    rw [show cnt + 1 + flen - (cnt + 1) = flen from by omega] at hfold
    rw [hfold]
    omega

mutual
/-- The subtree walks of the chunker behave canonically on the block
a processed DOM node occupies in any node list aligned with it. -/
theorem processNode_collect (m : List (String × Nat)) (f : Bool) (cnt : Nat) (nd : DomNode) :
    ∀ ns : List WNode, NsAligned ns cnt (processNode m f cnt nd).2.1 →
    (processNode m f cnt nd).2.2.isSome = true →
    (∀ fuel acc, (processNode m f cnt nd).2.1.length ≤ fuel →
      (∀ x ∈ acc, x ∉ List.range' cnt (processNode m f cnt nd).2.1.length) →
      collectSubtreeNodes ns fuel cnt acc =
        acc ++ List.range' cnt (processNode m f cnt nd).2.1.length) ∧
    (∀ fuel, (processNode m f cnt nd).2.1.length ≤ fuel →
      countNodesInSubtree ns fuel cnt = (processNode m f cnt nd).2.1.length) := by
  cases nd with
  | element t a c =>
      intro ns hal _
      have hsh := processForest_shape m (toLowerS t = "form" || f) (cnt + 1) c
      obtain ⟨node, hcons, hch⟩ :
          ∃ node, (processNode m f cnt (.element t a c)).2.1 =
            node :: (processForest m (toLowerS t = "form" || f) (cnt + 1) c).2.1 ∧
            node.children = (processForest m (toLowerS t = "form" || f) (cnt + 1) c).2.2 :=
        ⟨_, rfl, rfl⟩
      have hlen : (processNode m f cnt (.element t a c)).2.1.length =
          (processForest m (toLowerS t = "form" || f) (cnt + 1) c).2.1.length + 1 := by
        rw [hcons]
        simp
      have hfind : nsFind ns cnt = some node := by
        have h0 := hal 0 (by rw [hlen]; omega)
        rw [Nat.add_zero] at h0
        rw [h0]
        congr 1
        have : ∀ (l : List WNode) (hl : (processNode m f cnt (.element t a c)).2.1 = node :: l)
            (hh : 0 < (processNode m f cnt (.element t a c)).2.1.length),
            (processNode m f cnt (.element t a c)).2.1.get ⟨0, hh⟩ = node := by
          intro l hl hh
          rw [List.get_eq_getElem]
          simp [hl]
        exact this _ hcons _
      have hal2 : NsAligned ns (cnt + 1)
          (processForest m (toLowerS t = "form" || f) (cnt + 1) c).2.1 := by
        have halx : NsAligned ns cnt
            ([node] ++ (processForest m (toLowerS t = "form" || f) (cnt + 1) c).2.1) := by
          rw [List.singleton_append, ← hcons]
          exact hal
        have := nsAligned_append_right ns cnt [node] _ halx
        simpa using this
      have hblocks := processForest_blocks m (toLowerS t = "form" || f) (cnt + 1) c ns hal2
      rw [hsh.1, ← hch] at hblocks
      have hstep := collect_step ns cnt node
        (processForest m (toLowerS t = "form" || f) (cnt + 1) c).2.1.length hfind hblocks
      rw [hlen]
      exact hstep
  | text d =>
      by_cases hlen : 0 < (trimJS d.data).length
      · intro ns hal _
        rw [processNode_text_pos m f cnt d hlen] at hal ⊢
        have hfind : nsFind ns cnt = some (textWNode cnt (String.mk (trimJS d.data))) := by
          have h0 := hal 0 (by simp)
          rw [Nat.add_zero] at h0
          simpa using h0
        have hblocks : Blocks ns (cnt + 1) (cnt + 1 + 0)
            (textWNode cnt (String.mk (trimJS d.data))).children := Blocks.nil (cnt + 1)
        have hstep := collect_step ns cnt (textWNode cnt (String.mk (trimJS d.data))) 0
          hfind hblocks
        simpa using hstep
      · intro ns _ hsome
        rw [processNode_text_neg m f cnt d hlen] at hsome
        cases hsome

/-- A processed forest yields a block run in any aligned node list. -/
theorem processForest_blocks (m : List (String × Nat)) (f : Bool) (cnt : Nat)
    (fr : DomForest) :
    ∀ ns : List WNode, NsAligned ns cnt (processForest m f cnt fr).2.1 →
    Blocks ns cnt (processForest m f cnt fr).1 (processForest m f cnt fr).2.2 := by
  cases fr with
  | nil =>
      intro ns _
      exact Blocks.nil cnt
  | cons h tl =>
      intro ns hal
      have hns := processNode_shape m f cnt h
      have hsplit : (processForest m f cnt (.cons h tl)).2.1 =
          (processNode m f cnt h).2.1 ++ (processForest m f (processNode m f cnt h).1 tl).2.1 :=
        rfl
      have hal1 := nsAligned_append_left ns cnt (processNode m f cnt h).2.1
        (processForest m f (processNode m f cnt h).1 tl).2.1 (by rwa [hsplit] at hal)
      have hal2x := nsAligned_append_right ns cnt (processNode m f cnt h).2.1
        (processForest m f (processNode m f cnt h).1 tl).2.1 (by rwa [hsplit] at hal)
      rw [← hns.1] at hal2x
      have htailB := processForest_blocks m f (processNode m f cnt h).1 tl ns hal2x
      have hgoal : (processForest m f cnt (.cons h tl)).2.2 =
          (processNode m f cnt h).2.2.toList ++
          (processForest m f (processNode m f cnt h).1 tl).2.2 := rfl
      have hfin : (processForest m f cnt (.cons h tl)).1 =
          (processForest m f (processNode m f cnt h).1 tl).1 := rfl
      rw [hgoal, hfin]
      cases hopt : (processNode m f cnt h).2.2 with
      | none =>
          have hempty := hns.2.2.1 hopt
          have hcnt1 : (processNode m f cnt h).1 = cnt := by
            rw [hns.1, hempty]
            simp
          simp only [Option.toList_none, List.nil_append]
          rw [hcnt1] at htailB ⊢
          exact htailB
      | some i =>
          obtain ⟨hieq, hpos⟩ := hns.2.2.2 i hopt
          have hcol := processNode_collect m f cnt h ns hal1 (by rw [hopt]; rfl)
          simp only [Option.toList_some, List.singleton_append]
          rw [hieq]
          rw [hns.1] at htailB ⊢
          exact Blocks.cons cnt (processNode m f cnt h).2.1.length
            (processForest m f (cnt + (processNode m f cnt h).2.1.length) tl).1
            (processForest m f (cnt + (processNode m f cnt h).2.1.length) tl).2.2
            (by omega) hcol.1 hcol.2 htailB
end

/-- The compiled list's ids are its positions. -/
theorem compile_ids (forest : DomForest) (m : List (String × Nat)) :
    (compileHTMLToNodes forest m).nodes.map (·._id) =
      List.range' 0 (compileHTMLToNodes forest m).nodes.length :=
  (processForest_shape m false 0 (contentOfForest forest)).2.1

/-- The compiled list is aligned with itself under the id lookup. -/
theorem compile_aligned (forest : DomForest) (m : List (String × Nat)) :
    NsAligned (compileHTMLToNodes forest m).nodes 0 (compileHTMLToNodes forest m).nodes := by
  intro k hk
  exact nsFind_ids _ 0 (compile_ids forest m) k hk

/-- The compiled root ids are a block run covering the whole list. -/
theorem compile_blocks (forest : DomForest) (m : List (String × Nat)) :
    Blocks (compileHTMLToNodes forest m).nodes 0 (compileHTMLToNodes forest m).nodes.length
      (compileHTMLToNodes forest m).rootNodeIds := by
  have hb := processForest_blocks m false 0 (contentOfForest forest)
    (compileHTMLToNodes forest m).nodes (compile_aligned forest m)
  have hfin := (processForest_shape m false 0 (contentOfForest forest)).1
  rw [hfin, Nat.zero_add] at hb
  exact hb

/-- Filtering an id-ordered list by an id interval is slicing. -/
theorem filter_ids_slice : ∀ (ns : List WNode) (c : Nat),
    ns.map (·._id) = List.range' c ns.length →
    ∀ (a k : Nat), c ≤ a → a + k ≤ c + ns.length →
    ns.filter (fun nd => (List.range' a k).contains nd._id) = (ns.drop (a - c)).take k := by
  intro ns
  induction ns with
  | nil =>
      intro c _ a k _ _
      simp
  | cons nd tl ih =>
      intro c hmap a k hca hbound
      have hmap' := hmap
      rw [List.map_cons, List.length_cons, List.range'_succ] at hmap'
      have hhd : nd._id = c := (List.cons_eq_cons.mp hmap').1
      have htl : tl.map (·._id) = List.range' (c + 1) tl.length := (List.cons_eq_cons.mp hmap').2
      have hb2 : a + k ≤ c + 1 + tl.length := by
        rw [List.length_cons] at hbound
        omega
      cases k with
      | zero =>
          rw [List.take_zero]
          rw [List.filter_eq_nil_iff]
          intro x _
          rw [contains_range']
          simp
      | succ k' =>
          by_cases hac : a = c
          · subst hac
            have hc : ((List.range' a (k' + 1)).contains nd._id) = true := by
              rw [hhd]  -- wait hhd : nd._id = a now
              rw [contains_range']
              rw [decide_eq_true_eq]
              omega
            rw [@List.filter_cons_of_pos WNode
              (fun nd => (List.range' a (k' + 1)).contains nd._id) nd tl hc]
            have hcong : tl.filter (fun nd => (List.range' a (k' + 1)).contains nd._id) =
                tl.filter (fun nd => (List.range' (a + 1) k').contains nd._id) := by
              apply List.filter_congr
              intro x hx
              have hxid : x._id ∈ List.range' (a + 1) tl.length := by
                rw [← htl]
                exact List.mem_map_of_mem _ hx
              rw [List.mem_range'_1] at hxid
              rw [contains_range', contains_range', decide_eq_decide]
              omega
            rw [hcong, ih (a + 1) htl (a + 1) k' (le_refl _) (by omega)]
            simp
          · have hac2 : c < a := lt_of_le_of_ne hca (Ne.symm hac)
            have hc : ((List.range' a (k' + 1)).contains nd._id) = false := by
              rw [hhd, contains_range']
              rw [decide_eq_false_iff_not]
              omega
            rw [@List.filter_cons_of_neg WNode
              (fun nd => (List.range' a (k' + 1)).contains nd._id) nd tl (by simp only [hc]; simp)]
            rw [ih (c + 1) htl a (k' + 1) (by omega) (by omega)]
            rw [show a - c = (a - (c + 1)) + 1 from by omega, List.drop_succ_cons]

/-- A block run's id interval is covered by the union of the single
subtree collections of its roots (the chunker's per-root form of the
same set). -/
theorem Blocks_any_collect (ns : List WNode) :
    ∀ {s e : Nat} {roots : List Nat}, Blocks ns s e roots → e ≤ ns.length →
    ∀ x : Nat, (roots.any
        (fun rt => (collectSubtreeNodes ns (ns.length + 1) rt []).contains x)) =
      (List.range' s (e - s)).contains x := by
  intro s e roots h
  induction h with
  | nil =>
      intro _ x
      simp [contains_range']
  | cons s L e roots' hL hcollect hcount htail ih =>
      intro hle x
      have hse : s + L ≤ e := by
        have := Blocks_le ns htail
        omega
      rw [List.any_cons]
      rw [hcollect (ns.length + 1) [] (by omega) (by simp)]
      rw [List.nil_append]
      rw [ih hle]
      rw [contains_range', contains_range', contains_range']
      rw [← Bool.decide_or]
      rw [decide_eq_decide]
      omega

/-- A group partition covers an ordered interval. -/
theorem Groups_le (ns : List WNode) :
    ∀ {a b : Nat} {gs : List (Nat × Nat × List Nat)}, Groups ns a b gs → a ≤ b := by
  intro a b gs h
  induction h with
  | nil => exact le_refl _
  | cons s t e rs gs hB hne hG ih =>
      have := Blocks_le ns hB
      omega

/-- Each group of a partition is a nonempty block run ending within
the partitioned interval. -/
theorem Groups_blocks_mem (ns : List WNode) :
    ∀ {a b : Nat} {gs : List (Nat × Nat × List Nat)}, Groups ns a b gs →
    ∀ x ∈ gs, Blocks ns x.1 x.2.1 x.2.2 ∧ x.2.2 ≠ [] ∧ x.2.1 ≤ b := by
  intro a b gs h
  induction h with
  | nil =>
      intro x hx
      cases hx
  | cons s t e rs gs hB hne hG ih =>
      intro x hx
      rcases List.mem_cons.mp hx with e2 | hx2
      · subst e2
        exact ⟨hB, hne, Groups_le ns hG⟩
      · exact ih x hx2

/-- The per-group slices of a partition concatenate to the slice of
the whole interval. -/
theorem Groups_join_slices (ns : List WNode)
    (hids : ns.map (·._id) = List.range' 0 ns.length) :
    ∀ {a b : Nat} {gs : List (Nat × Nat × List Nat)}, Groups ns a b gs → b ≤ ns.length →
    (gs.map (fun x =>
      ns.filter (fun nd => (List.range' x.1 (x.2.1 - x.1)).contains nd._id))).flatten =
    (ns.drop a).take (b - a) := by
  intro a b gs h
  induction h with
  | nil =>
      intro _
      simp
  | cons s t e rs gs hB hne hG ih =>
      intro hle
      have hst : s ≤ t := Blocks_le ns hB
      have hte : t ≤ e := Groups_le ns hG
      rw [List.map_cons, List.flatten_cons, ih hle]
      rw [filter_ids_slice ns 0 hids s (t - s) (by omega) (by omega)]
      rw [Nat.sub_zero]
      rw [show List.drop t ns = List.drop (t - s) (List.drop s ns) from by
        rw [List.drop_drop]
        congr 1
        omega]
      rw [← List.take_add]
      congr 1
      omega

/-- Inversion for a nonempty block run. -/
theorem Blocks_cons_inv (ns : List WNode) {s e : Nat} {r : Nat} {rest : List Nat}
    (h : Blocks ns s e (r :: rest)) :
    r = s ∧ ∃ L, 1 ≤ L ∧
      (∀ fuel acc, L ≤ fuel → (∀ x ∈ acc, x ∉ List.range' s L) →
        collectSubtreeNodes ns fuel s acc = acc ++ List.range' s L) ∧
      (∀ fuel, L ≤ fuel → countNodesInSubtree ns fuel s = L) ∧
      Blocks ns (s + L) e rest := by
  cases h with
  | cons s L e roots' hL hcollect hcount htail =>
      exact ⟨rfl, L, hL, hcollect, hcount, htail⟩

/-- The chunker's greedy loop, run on a tail of block roots from a
well-formed mid-loop state, produces exactly one chunk per group of a
consecutive partition of the remaining interval, each chunk holding
the slice of `ns` spanned by its group; an oversized root always ends
up alone in its group. -/
theorem chunkGo_spec (ns : List WNode) (maxN : Nat) :
    ∀ (rem : List Nat), ∀ (s : Nat), Blocks ns s ns.length rem →
    ∀ (gstart : Nat) (curRoots : List Nat), Blocks ns gstart s curRoots →
    (∀ rt ∈ curRoots, maxN < countNodesInSubtree ns (ns.length + 1) rt → curRoots = [rt]) →
    ∀ (idx : Nat) (acc : List Chunk),
    ∃ gs : List (Nat × Nat × List Nat),
      Groups ns gstart ns.length gs ∧
      (gs.map (fun x => x.2.2)).flatten = curRoots ++ rem ∧
      (chunkGo ns maxN rem (List.range' gstart (s - gstart)) curRoots idx acc).map
          (fun c => c.nodes) =
        acc.map (fun c => c.nodes) ++ gs.map (fun x =>
          ns.filter (fun nd => (List.range' x.1 (x.2.1 - x.1)).contains nd._id)) ∧
      (∀ x ∈ gs, ∀ rt ∈ x.2.2,
        maxN < countNodesInSubtree ns (ns.length + 1) rt → x.2.2 = [rt]) := by
  intro rem
  induction rem with
  | nil =>
      intro s hrem gstart curRoots hcur hover idx acc
      have hse : s = ns.length := Blocks_nil_eq ns hrem
      subst hse
      cases curRoots with
      | nil =>
          have hge : gstart = ns.length := Blocks_nil_eq ns hcur
          refine ⟨[], ?_, by simp, ?_, by simp⟩
          · rw [hge]
            exact Groups.nil _
          · rw [hge]
            simp [chunkGo]
      | cons r0 rs =>
          refine ⟨[(gstart, ns.length, r0 :: rs)], ?_, by simp, ?_, ?_⟩
          · exact Groups.cons _ _ _ _ _ hcur (by simp) (Groups.nil _)
          · have hlt : gstart < ns.length := Blocks_pos ns hcur
            simp only [chunkGo]
            rw [if_pos (by rw [List.length_range']; omega)]
            simp [List.map_append]
          · intro x hx rt hrt hbig
            rcases List.mem_cons.mp hx with e1 | h2
            · rw [e1]
              exact hover rt (by rw [e1] at hrt; exact hrt) hbig
            · cases h2
  | cons r rest ih =>
      intro s hrem gstart curRoots hcur hover idx acc
      obtain ⟨hrs, L, hL, hcollect, hcount, htail⟩ := Blocks_cons_inv ns hrem
      subst hrs
      have hsL : r + L ≤ ns.length := Blocks_le ns htail
      have hgs : gstart ≤ r := Blocks_le ns hcur
      have hsize : countNodesInSubtree ns (ns.length + 1) r = L := hcount _ (by omega)
      by_cases hcond : 0 < r - gstart ∧ maxN < (r - gstart) + L
      · obtain ⟨hc1, hc2⟩ := hcond
        have hne : curRoots ≠ [] := by
          intro h0
          rw [h0] at hcur
          have := Blocks_nil_eq ns hcur
          omega
        have hcol : collectSubtreeNodes ns (ns.length + 1) r [] = List.range' r L := by
          rw [hcollect (ns.length + 1) [] (by omega) (by simp)]
          simp
        have hblk : Blocks ns r (r + L) [r] :=
          Blocks.cons r L (r + L) [] hL hcollect hcount (Blocks.nil _)
        have hone : ∀ rt ∈ [r], maxN < countNodesInSubtree ns (ns.length + 1) rt →
            ([r] : List Nat) = [rt] := by
          intro rt hrt _
          rw [List.mem_singleton.mp hrt]
        obtain ⟨gs', hG', hflat', hmap', hov'⟩ := ih (r + L) htail r [r] hblk hone (idx + 1)
          (acc ++ [⟨midChunkLabel ns curRoots idx,
            ns.filter (fun n => (List.range' gstart (r - gstart)).contains n._id),
            (ns.filter (fun n => (List.range' gstart (r - gstart)).contains n._id)).length⟩])
        refine ⟨(gstart, r, curRoots) :: gs', ?_, ?_, ?_, ?_⟩
        · exact Groups.cons _ _ _ _ _ hcur hne hG'
        · rw [List.map_cons, List.flatten_cons, hflat']
          rfl
        · simp only [chunkGo]
          rw [List.length_range', hsize]
          rw [if_pos ⟨hc1, hc2⟩]
          rw [hcol]
          rw [show r + L - r = L from by omega] at hmap'
          rw [hmap']
          simp [List.map_append]
        · intro x hx rt hrt hbig
          rcases List.mem_cons.mp hx with e1 | h2
          · rw [e1]
            exact hover rt (by rw [e1] at hrt; exact hrt) hbig
          · exact hov' x h2 rt hrt hbig
      · have hcol2 : collectSubtreeNodes ns (ns.length + 1) r (List.range' gstart (r - gstart)) =
            List.range' gstart (r + L - gstart) := by
          rw [hcollect (ns.length + 1) (List.range' gstart (r - gstart)) (by omega) ?disj]
          case disj =>
            intro x hx
            rw [List.mem_range'_1] at hx
            rw [List.mem_range'_1]
            omega
          have hap := List.range'_append gstart (r - gstart) L 1
          simp only [one_mul, Nat.mul_one] at hap
          rw [show gstart + (r - gstart) = r from by omega] at hap
          rw [hap]
          congr 1
          omega
        have hblk2 : Blocks ns gstart (r + L) (curRoots ++ [r]) :=
          Blocks_append ns hcur (Blocks.cons r L (r + L) [] hL hcollect hcount (Blocks.nil _))
        have hov2 : ∀ rt ∈ curRoots ++ [r], maxN < countNodesInSubtree ns (ns.length + 1) rt →
            curRoots ++ [r] = [rt] := by
          intro rt hrt hbig
          rcases List.mem_append.mp hrt with hin | hin
          · have hcr := hover rt hin hbig
            rw [hcr] at hcur
            obtain ⟨hre, L2, hL2, _, hcount2, htail2⟩ := Blocks_cons_inv ns hcur
            have hge : gstart + L2 = r := Blocks_nil_eq ns htail2
            rw [hre] at hbig
            rw [hcount2 (ns.length + 1) (by omega)] at hbig
            exfalso
            exact hcond ⟨by omega, by omega⟩
          · have he : rt = r := List.mem_singleton.mp hin
            subst he
            rw [hsize] at hbig
            cases curRoots with
            | nil => rfl
            | cons c0 ctl =>
                exfalso
                have hpos := Blocks_pos ns hcur
                exact hcond ⟨by omega, by omega⟩
        obtain ⟨gs', hG', hflat', hmap', hov'⟩ :=
          ih (r + L) htail gstart (curRoots ++ [r]) hblk2 hov2 idx acc
        refine ⟨gs', hG', ?_, ?_, hov'⟩
        · rw [hflat']
          simp
        · simp only [chunkGo]
          rw [List.length_range', hsize]
          rw [if_neg hcond]
          rw [hcol2]
          exact hmap'

/-- C2, counterexample to the unrestricted claim: on an arbitrary
node list / root-id list pair — here a nonempty node list with an
empty root-id list, a state the compiler never produces —
`splitIntoChunks` returns no chunks at all, so the chunks do not
cover the input node list and no exact partition exists. -/
theorem c2_counterexample :
    ((splitIntoChunks [orphanNode] [] 1).map (fun c => c.nodes)).flatten = [] ∧
    ([orphanNode] : List WNode) ≠ [] := by
  constructor
  · rfl
  · simp

/-- C2 (amended): restricted to the compiler's own output — any DOM
forest and style map, and a positive chunk limit — `splitIntoChunks`
partitions the node list exactly: (1) the chunks' node lists
concatenate to the full node list in order; (2) the chunks follow a
grouping of the root ids into consecutive nonempty groups, each
chunk holding precisely the nodes of its group's complete root
subtrees (so a parent is never separated from a descendant and input
order is preserved); (3) a root whose subtree exceeds the limit gets
a chunk that is exactly its own whole subtree. The claim's "for
every node list and root-id list" version is refuted by
`c2_counterexample`. -/
theorem c2_chunks_amended (forest : DomForest) (m : List (String × Nat)) (maxN : Nat)
    (_hmax : 0 < maxN) :
    ((splitIntoChunks (compileHTMLToNodes forest m).nodes
        (compileHTMLToNodes forest m).rootNodeIds maxN).map (fun c => c.nodes)).flatten =
      (compileHTMLToNodes forest m).nodes ∧
    (∃ groups : List (List Nat),
      groups.flatten = (compileHTMLToNodes forest m).rootNodeIds ∧
      (∀ g ∈ groups, g ≠ []) ∧
      (splitIntoChunks (compileHTMLToNodes forest m).nodes
          (compileHTMLToNodes forest m).rootNodeIds maxN).map (fun c => c.nodes) =
        groups.map (fun g => (compileHTMLToNodes forest m).nodes.filter (fun nd =>
          g.any (fun rt => (collectSubtreeNodes (compileHTMLToNodes forest m).nodes
            ((compileHTMLToNodes forest m).nodes.length + 1) rt []).contains nd._id)))) ∧
    (∀ rt ∈ (compileHTMLToNodes forest m).rootNodeIds,
      maxN < countNodesInSubtree (compileHTMLToNodes forest m).nodes
          ((compileHTMLToNodes forest m).nodes.length + 1) rt →
      ∃ c ∈ splitIntoChunks (compileHTMLToNodes forest m).nodes
          (compileHTMLToNodes forest m).rootNodeIds maxN,
        c.nodes = (compileHTMLToNodes forest m).nodes.filter (fun nd =>
          (collectSubtreeNodes (compileHTMLToNodes forest m).nodes
            ((compileHTMLToNodes forest m).nodes.length + 1) rt []).contains nd._id)) := by
  have hids := compile_ids forest m
  have hb := compile_blocks forest m
  obtain ⟨gs, hG, hflat, hmap, hov⟩ := chunkGo_spec (compileHTMLToNodes forest m).nodes maxN
    (compileHTMLToNodes forest m).rootNodeIds 0 hb 0 [] (Blocks.nil 0)
    (by intro rt hrt; cases hrt) 1 []
  simp only [Nat.sub_self, List.range'_zero, List.map_nil, List.nil_append] at hmap
  rw [List.nil_append] at hflat
  have hsplit : (splitIntoChunks (compileHTMLToNodes forest m).nodes
      (compileHTMLToNodes forest m).rootNodeIds maxN).map (fun c => c.nodes) =
      gs.map (fun x => (compileHTMLToNodes forest m).nodes.filter (fun nd =>
        (List.range' x.1 (x.2.1 - x.1)).contains nd._id)) := hmap
  have hmem := Groups_blocks_mem (compileHTMLToNodes forest m).nodes hG
  have hpoint : ∀ x ∈ gs,
      (compileHTMLToNodes forest m).nodes.filter (fun nd =>
        (List.range' x.1 (x.2.1 - x.1)).contains nd._id) =
      (compileHTMLToNodes forest m).nodes.filter (fun nd =>
        x.2.2.any (fun rt => (collectSubtreeNodes (compileHTMLToNodes forest m).nodes
          ((compileHTMLToNodes forest m).nodes.length + 1) rt []).contains nd._id)) := by
    intro x hx
    obtain ⟨hBx, hnex, hle⟩ := hmem x hx
    apply List.filter_congr
    intro nd _
    exact (Blocks_any_collect _ hBx hle nd._id).symm
  refine ⟨?_, ⟨gs.map (fun x => x.2.2), ?_, ?_, ?_⟩, ?_⟩
  · rw [hsplit, Groups_join_slices _ hids hG (le_refl _)]
    simp
  · exact hflat
  · intro g hg
    obtain ⟨x, hx, hxe⟩ := List.mem_map.mp hg
    obtain ⟨_, hnex, _⟩ := hmem x hx
    rw [← hxe]
    exact hnex
  · rw [hsplit, List.map_map]
    exact List.map_congr_left (fun x hx => hpoint x hx)
  · intro rt hrt hbig
    rw [← hflat] at hrt
    obtain ⟨l, hl, hrtl⟩ := List.mem_flatten.mp hrt
    obtain ⟨x, hx, hxe⟩ := List.mem_map.mp hl
    rw [← hxe] at hrtl
    have hsing := hov x hx rt hrtl hbig
    have hmemc : (compileHTMLToNodes forest m).nodes.filter (fun nd =>
        (List.range' x.1 (x.2.1 - x.1)).contains nd._id) ∈
        (splitIntoChunks (compileHTMLToNodes forest m).nodes
          (compileHTMLToNodes forest m).rootNodeIds maxN).map (fun c => c.nodes) := by
      rw [hsplit]
      exact List.mem_map.mpr ⟨x, hx, rfl⟩
    obtain ⟨c, hc, hce⟩ := List.mem_map.mp hmemc
    refine ⟨c, hc, ?_⟩
    have h2 := hpoint x hx
    rw [hsing] at h2
    rw [hce, h2]
    apply List.filter_congr
    intro nd _
    simp [List.any_cons]

/-- C2 witness: the amended partition theorem instantiated at the
concrete demo forest with an empty style map and limit 2. -/
theorem c2_witness :
    0 < 2 ∧
    (((splitIntoChunks (compileHTMLToNodes demoRoundTripForest []).nodes
        (compileHTMLToNodes demoRoundTripForest []).rootNodeIds 2).map
          (fun c => c.nodes)).flatten =
      (compileHTMLToNodes demoRoundTripForest []).nodes ∧
    (∃ groups : List (List Nat),
      groups.flatten = (compileHTMLToNodes demoRoundTripForest []).rootNodeIds ∧
      (∀ g ∈ groups, g ≠ []) ∧
      (splitIntoChunks (compileHTMLToNodes demoRoundTripForest []).nodes
          (compileHTMLToNodes demoRoundTripForest []).rootNodeIds 2).map (fun c => c.nodes) =
        groups.map (fun g => (compileHTMLToNodes demoRoundTripForest []).nodes.filter (fun nd =>
          g.any (fun rt => (collectSubtreeNodes (compileHTMLToNodes demoRoundTripForest []).nodes
            ((compileHTMLToNodes demoRoundTripForest []).nodes.length + 1) rt
              []).contains nd._id)))) ∧
    (∀ rt ∈ (compileHTMLToNodes demoRoundTripForest []).rootNodeIds,
      2 < countNodesInSubtree (compileHTMLToNodes demoRoundTripForest []).nodes
          ((compileHTMLToNodes demoRoundTripForest []).nodes.length + 1) rt →
      ∃ c ∈ splitIntoChunks (compileHTMLToNodes demoRoundTripForest []).nodes
          (compileHTMLToNodes demoRoundTripForest []).rootNodeIds 2,
        c.nodes = (compileHTMLToNodes demoRoundTripForest []).nodes.filter (fun nd =>
          (collectSubtreeNodes (compileHTMLToNodes demoRoundTripForest []).nodes
            ((compileHTMLToNodes demoRoundTripForest []).nodes.length + 1) rt
              []).contains nd._id))) :=
  ⟨by decide, c2_chunks_amended demoRoundTripForest [] 2 (by decide)⟩

/-- C10 witness: the amended maxlength law applied at
`<input type="text" maxlength="12">`. -/
theorem c10_witness :
    (∀ k : Int,
      parseIntJS (getAttr [("type", "text"), ("maxlength", "12")] "maxlength") = some k →
      k.natAbs < 2 ^ 53) ∧
    (((attrOr [("type", "text"), ("maxlength", "12")] "type" "text" ∉
        (["submit", "button", "radio", "checkbox"] : List String)) →
      bagGet (extractAttributes [("type", "text"), ("maxlength", "12")] "input")
          "maxlength" =
        some (.n (parseIntOr [("type", "text"), ("maxlength", "12")] "maxlength" 256))) ∧
      (bagGet (extractAttributes [("type", "text"), ("maxlength", "12")] "textarea")
          "maxlength" =
        some (.n (parseIntOr [("type", "text"), ("maxlength", "12")] "maxlength" 5000))) ∧
      (∀ k : Int,
        parseIntJS (getAttr [("type", "text"), ("maxlength", "12")] "maxlength") = some k →
        k ≠ 0 →
        parseIntOr [("type", "text"), ("maxlength", "12")] "maxlength" 256 = k ∧
        parseIntOr [("type", "text"), ("maxlength", "12")] "maxlength" 5000 = k) ∧
      (parseIntJS (getAttr [("type", "text"), ("maxlength", "12")] "maxlength") = none →
        parseIntOr [("type", "text"), ("maxlength", "12")] "maxlength" 256 = 256 ∧
        parseIntOr [("type", "text"), ("maxlength", "12")] "maxlength" 5000 = 5000) ∧
      (parseIntJS (getAttr [("type", "text"), ("maxlength", "12")] "maxlength") = some 0 →
        parseIntOr [("type", "text"), ("maxlength", "12")] "maxlength" 256 = 256 ∧
        parseIntOr [("type", "text"), ("maxlength", "12")] "maxlength" 5000 = 5000) ∧
      (bagGet (extractAttributes [("maxlength", "0x10")] "input") "maxlength" =
        some (.n 16))) :=
  ⟨by intro k hk
      rw [show parseIntJS (getAttr [("type", "text"), ("maxlength", "12")] "maxlength") =
        some (12 : Int) from by decide] at hk
      cases hk
      decide,
   c10_maxlength_amended [("type", "text"), ("maxlength", "12")]
     (by intro k hk
         rw [show parseIntJS (getAttr [("type", "text"), ("maxlength", "12")] "maxlength") =
           some (12 : Int) from by decide] at hk
         cases hk
         decide)⟩
